import Mathlib

/-!
# RtdPipeline: the CodePipeline validation handler (`validate.go`)

A shallow embedding of `RtdBackendInfra/validate.go`.  The Go functions are
embedded as computations over an explicit environment: every call that leaves
the program (AWS SDK, operating system, archive reader, logger) is one `Call`,
answered by a `World`, and recorded with its outcome in a trace.  Go panics,
`defer` and `recover` are modelled explicitly.
-/

namespace RtdPipeline

/-! ## Go values -/

/-- A non-nil Go `error`; a possibly-nil error is an `Option Err`. -/
abbrev Err := String

/-- A byte sequence (file contents, object bodies, template text). -/
abbrev Bytes := List Nat

/-- An `os.FileMode`, reduced to the directory bit and the permission bits. -/
structure FileMode where
  isDir : Bool
  perm : Nat
deriving DecidableEq, Repr

/-- One `*zip.File` of a `zip.ReadCloser`: header name, mode and the
uncompressed content. -/
structure ZipFile where
  name : String
  mode : FileMode
  data : Bytes
deriving DecidableEq, Repr

/-- The `events.CodePipelineS3Location` of an input artifact. -/
structure S3Location where
  bucketName : String
  objectKey : String
deriving DecidableEq, Repr

/-- The `events.CodePipelineInputLocation`. -/
structure InputLocation where
  s3Location : S3Location
deriving DecidableEq, Repr

/-- The `events.CodePipelineInputArtifact`. -/
structure InputArtifact where
  name : String
  location : InputLocation
deriving DecidableEq, Repr

/-- The `events.CodePipelineArtifactCredentials`. -/
structure ArtifactCredentials where
  accessKeyID : String
  secretAccessKey : String
  sessionToken : String
deriving DecidableEq, Repr

/-- The `events.CodePipelineData`. -/
structure CodePipelineData where
  inputArtifacts : List InputArtifact
  artifactCredentials : ArtifactCredentials
deriving DecidableEq, Repr

/-- The `events.CodePipelineJob`. -/
structure CodePipelineJob where
  id : String
  data : CodePipelineData
deriving DecidableEq, Repr

/-- The `events.CodePipelineEvent`. -/
structure CodePipelineEvent where
  codePipelineJob : CodePipelineJob
deriving DecidableEq, Repr

/-- The `BucketInfo` struct of `validate.go`. -/
structure BucketInfo where
  bucket : String
  key : String
deriving DecidableEq, Repr

/-! ## Calls, worlds and traces -/

/-- The calls `validate.go` makes outside itself. -/
inductive Call where
  /-- Call `session.NewSession(...)`, with the static credentials when given -/
  | newSession (creds : Option ArtifactCredentials)
  /-- Call `os.Create(path)` -/
  | osCreate (path : String)
  /-- Call `downloader.Download(f, {Bucket, Key})`, `f` being the file at `path` -/
  | download (path : String) (bucket : String) (key : String)
  /-- Call `Close` of the file opened at `path` -/
  | closeFile (path : String)
  /-- Call `zip.OpenReader(archive)` -/
  | zipOpenReader (archive : String)
  /-- Call `os.MkdirAll(path, perm)` -/
  | mkdirAll (path : String) (perm : FileMode)
  /-- Call `file.Open()` -/
  | zipOpen (file : ZipFile)
  /-- Call `fileReader.Close()` -/
  | closeReader (file : ZipFile)
  /-- Call `os.OpenFile(path, O_WRONLY|O_CREATE|O_TRUNC, perm)` -/
  | openFile (path : String) (perm : FileMode)
  /-- Call `io.Copy(targetFile, fileReader)` -/
  | ioCopy (path : String) (file : ZipFile)
  /-- Call `ioutil.ReadFile(path)` -/
  | readFile (path : String)
  /-- Call `cf.ValidateTemplate({TemplateBody})` -/
  | validateTemplate (templateBody : Bytes)
  /-- Call `cp.PutJobFailureResult({JobId})` -/
  | putJobFailureResult (jobId : String)
  /-- Call `cp.PutJobSuccessResult({JobId})` -/
  | putJobSuccessResult (jobId : String)
  /-- Call `log.Println` / `log.Printf` -/
  | log (msg : String)
deriving DecidableEq, Repr

/-- What a call returns: the error (nil is `none`) and the payload the callee
hands back (the archive's files for `zip.OpenReader`, the bytes read for
`ioutil.ReadFile`). -/
structure Resp where
  err : Option Err
  files : List ZipFile
  data : Bytes
deriving DecidableEq, Repr

/-- The environment: how each call is answered in a given state. -/
abbrev World (σ : Type) := Call → σ → Resp × σ

/-- One trace record: the call made and the error it returned. -/
structure Rec where
  call : Call
  err : Option Err
deriving DecidableEq, Repr

/-- The value a Go panic carries: an error passed to `panic` by `check`, or
the runtime error of an out-of-range index. -/
inductive Panic where
  | error (e : Err)
  | indexOutOfRange
deriving DecidableEq, Repr

/-- How a Go function ends: it returns, or it panics. -/
inductive Outcome (α : Type) where
  | ret (a : α)
  | panic (p : Panic)
deriving DecidableEq, Repr

/-- The result of running a computation: outcome, final state of the world and
the calls made, oldest first. -/
structure Res (σ α : Type) where
  out : Outcome α
  state : σ
  trace : List Rec

/-- A Go computation over a world with states `σ`. -/
def Go (σ α : Type) := σ → Res σ α

/-- Return a value without making a call. -/
def Go.pure {σ α : Type} (a : α) : Go σ α := fun s => ⟨.ret a, s, []⟩

/-- Sequencing: a panic of the first part skips the second. -/
def Go.bind {σ α β : Type} (m : Go σ α) (f : α → Go σ β) : Go σ β := fun s =>
  match (m s).out with
  | .ret a => ⟨(f a (m s).state).out, (f a (m s).state).state, (m s).trace ++ (f a (m s).state).trace⟩
  | .panic p => ⟨.panic p, (m s).state, (m s).trace⟩

instance (σ : Type) : Monad (Go σ) where
  pure := Go.pure
  bind := Go.bind

/-- The statement `panic(p)`. -/
def raise {σ α : Type} (p : Panic) : Go σ α := fun s => ⟨.panic p, s, []⟩

/-- Make a call: the world answers and the call is recorded. -/
def call {σ : Type} (w : World σ) (c : Call) : Go σ Resp := fun s =>
  ⟨.ret (w c s).1, (w c s).2, [⟨c, (w c s).1.err⟩]⟩

/-- A log line: recorded, never failing, not visible to the world. -/
def logLine {σ : Type} (msg : String) : Go σ Unit := fun s =>
  ⟨.ret (), s, [⟨.log msg, none⟩]⟩

/-- Deferred call: the statement `defer d` followed by `body`.  `d` runs when
`body` returns or panics, and the outcome of `body` stands unless `d` itself
panics. -/
def deferring {σ α : Type} (d : Go σ Unit) (body : Go σ α) : Go σ α := fun s =>
  match (d (body s).state).out with
  | .ret _ => ⟨(body s).out, (d (body s).state).state, (body s).trace ++ (d (body s).state).trace⟩
  | .panic p => ⟨.panic p, (d (body s).state).state, (body s).trace ++ (d (body s).state).trace⟩

/-- Deferred recovery: the statement
`defer func() { if r := recover(); r != nil { h } }()` followed by `body`, in
a function whose result is unnamed.  When `body` panics, `h` runs and the
function returns the zero value `zero`; a panic of `h` leaves the function. -/
def recovering {σ α : Type} (h : Go σ Unit) (zero : α) (body : Go σ α) : Go σ α := fun s =>
  match (body s).out with
  | .ret a => ⟨.ret a, (body s).state, (body s).trace⟩
  | .panic _ =>
    match (h (body s).state).out with
    | .ret _ => ⟨.ret zero, (h (body s).state).state, (body s).trace ++ (h (body s).state).trace⟩
    | .panic q => ⟨.panic q, (h (body s).state).state, (body s).trace ++ (h (body s).state).trace⟩

/-! ## `path/filepath` on Unix -/

/-- Split at every `/`. -/
def splitSlash : List Char → List (List Char)
  | [] => [[]]
  | c :: cs =>
    if c = '/' then [] :: splitSlash cs
    else
      match splitSlash cs with
      | [] => [[c]]
      | h :: t => (c :: h) :: t

/-- The elements of a path: its `/`-separated pieces. -/
def elements (p : String) : List String := (splitSlash p.data).map String.mk

/-- Whether the path starts at the root. -/
def isRooted (p : String) : Bool :=
  match p.data with
  | c :: _ => c = '/'
  | [] => false

/-- One step of lexical cleaning; `acc` is the cleaned path so far, innermost
element first.  Empty elements and `.` vanish; `..` removes the element before
it, is dropped at the root, and is kept at the start of a relative path. -/
def cleanStep (rooted : Bool) (acc : List String) (e : String) : List String :=
  if e = "" ∨ e = "." then acc
  else if e = ".." then
    match acc with
    | [] => if rooted then [] else [".."]
    | top :: rest => if top = ".." then ".." :: top :: rest else rest
  else e :: acc

/-- The elements of the cleaned path, outermost first. -/
def cleanElements (p : String) : List String :=
  ((elements p).foldl (cleanStep (isRooted p)) []).reverse

/-- The elements written one after the other with `/` between them. -/
def joinSlash : List String → String
  | [] => ""
  | [e] => e
  | e :: f :: rest => e ++ "/" ++ joinSlash (f :: rest)

/-- `filepath.Clean`. -/
def filepathClean (p : String) : String :=
  if p = "" then "."
  else if isRooted p then "/" ++ joinSlash (cleanElements p)
  else if cleanElements p = [] then "."
  else joinSlash (cleanElements p)

/-- `filepath.Join(a, b)`: the elements from the first non-empty one on are
joined with `/` and cleaned. -/
def filepathJoin (a b : String) : String :=
  if a ≠ "" then filepathClean (a ++ "/" ++ b)
  else if b ≠ "" then filepathClean b
  else ""

/-! ## `validate.go` -/

/-- The constant `localZippedArtifactPath`. -/
def localZippedArtifactPath : String := "/tmp/merged.zip"

/-- The constant `localUnzipedArtifactPath`. -/
def localUnzipedArtifactPath : String := "/tmp/merged.yml"

/-- `check`: panic with the error when it is not nil. -/
def check {σ : Type} (e : Option Err) : Go σ Unit :=
  match e with
  | some e => raise (.error e)
  | none => pure ()

/-- `session.Must(session.NewSession(...))`. -/
def sessionMust {σ : Type} (w : World σ) (creds : Option ArtifactCredentials) : Go σ Unit := do
  let r ← call w (.newSession creds)
  check r.err

/-- `bucket`: the location of `InputArtifacts[0]`; indexing an empty list is a
runtime panic. -/
def bucket {σ : Type} (artifact : CodePipelineEvent) : Go σ BucketInfo :=
  match artifact.codePipelineJob.data.inputArtifacts with
  | [] => raise .indexOutOfRange
  | a :: _ => pure ⟨a.location.s3Location.bucketName, a.location.s3Location.objectKey⟩

/-- `fail`: send the failure signal for the job of the event. -/
def fail {σ : Type} (w : World σ) (artifact : CodePipelineEvent) : Go σ Unit := do
  logLine "Sending fail signal to Code Pipeline"
  let r ← call w (.putJobFailureResult artifact.codePipelineJob.id)
  check r.err
  logLine "Code Pipeline fail signal output"

/-- `success`: send the success signal for the job of the event. -/
def success {σ : Type} (w : World σ) (artifact : CodePipelineEvent) : Go σ Unit := do
  logLine "Sending success signal to Code Pipeline"
  let r ← call w (.putJobSuccessResult artifact.codePipelineJob.id)
  check r.err
  logLine "Code Pipeline success signal output"

/-- `creds`: the credentials embedded in the event. -/
def creds (artifact : CodePipelineEvent) : ArtifactCredentials :=
  artifact.codePipelineJob.data.artifactCredentials

/-- `validatecf`: read the template and submit it for validation. -/
def validatecf {σ : Type} (w : World σ) : Go σ Unit := do
  let r ← call w (.readFile localUnzipedArtifactPath)
  check r.err
  logLine "Validating cloud formation template"
  let v ← call w (.validateTemplate r.data)
  check v.err
  logLine "validation output"
  logLine "Done validating"

/-- Run the pending deferred closes of `unzip`, last registered first; their
results are discarded. -/
def runDefers {σ : Type} (w : World σ) : List Call → Go σ Unit
  | [] => pure ()
  | c :: cs => do
    let _ ← call w c
    runDefers w cs

/-- The `for _, file := range reader.File` loop of `unzip`.  `defers` holds the
closes registered so far, last registered first; the result is the error the
function returns and the closes to run at that return. -/
def unzipLoop {σ : Type} (w : World σ) (target : String) :
    List ZipFile → List Call → Go σ (Option Err × List Call)
  | [], defers => pure (none, defers)
  | file :: rest, defers => do
    let path := filepathJoin target file.name
    if file.mode.isDir then
      let _ ← call w (.mkdirAll path file.mode)
      unzipLoop w target rest defers
    else
      let fr ← call w (.zipOpen file)
      match fr.err with
      | some e => pure (some e, defers)
      | none =>
        let defers := Call.closeReader file :: defers
        let tf ← call w (.openFile path file.mode)
        match tf.err with
        | some e => pure (some e, defers)
        | none =>
          let defers := Call.closeFile path :: defers
          let cp ← call w (.ioCopy path file)
          match cp.err with
          | some e => pure (some e, defers)
          | none => unzipLoop w target rest defers

/-- `unzip(archive, target)`. -/
def unzip {σ : Type} (w : World σ) (archive target : String) : Go σ (Option Err) := do
  let reader ← call w (.zipOpenReader archive)
  match reader.err with
  | some e => pure (some e)
  | none =>
    let md ← call w (.mkdirAll target ⟨false, 0o755⟩)
    match md.err with
    | some e => pure (some e)
    | none =>
      let (err, defers) ← unzipLoop w target reader.files []
      runDefers w defers
      pure err

/-- `downloadArtifacts`: download the archive of the first input artifact and
extract it into `/tmp`. -/
def downloadArtifacts {σ : Type} (w : World σ) (artifact : CodePipelineEvent) : Go σ Unit := do
  let bucketInfo ← bucket artifact
  sessionMust w (some (creds artifact))
  logLine "Downloading cloud formation template artifacts"
  let f ← call w (.osCreate localZippedArtifactPath)
  check f.err
  deferring (do let _ ← call w (.closeFile localZippedArtifactPath); pure ()) (do
    let d ← call w (.download localZippedArtifactPath bucketInfo.bucket bucketInfo.key)
    check d.err
    let e ← unzip w localZippedArtifactPath "/tmp"
    check e)

/-- `handler`: the Lambda entry point.  The session is created before the
recovering closure is deferred. -/
def handler {σ : Type} (w : World σ) (artifact : CodePipelineEvent) : Go σ (Option Err) := do
  sessionMust w none
  recovering (fail w artifact) none (do
    downloadArtifacts w artifact
    validatecf w
    success w artifact
    pure none)

/-! ## Reading traces -/

/-- The call is one of the two orchestrator signals. -/
def Call.isSignal : Call → Bool
  | .putJobFailureResult _ => true
  | .putJobSuccessResult _ => true
  | _ => false

/-- The call is the success signal. -/
def Call.isSuccessSignal : Call → Bool
  | .putJobSuccessResult _ => true
  | _ => false

/-- The call is the failure signal. -/
def Call.isFailureSignal : Call → Bool
  | .putJobFailureResult _ => true
  | _ => false

/-- The call is a log line. -/
def Call.isLog : Call → Bool
  | .log _ => true
  | _ => false

/-- The call is the template validation. -/
def Call.isValidate : Call → Bool
  | .validateTemplate _ => true
  | _ => false

/-- The call is the storage download. -/
def Call.isDownload : Call → Bool
  | .download _ _ _ => true
  | _ => false

/-- The call is the read of the template file. -/
def Call.isReadFile : Call → Bool
  | .readFile _ => true
  | _ => false

/-- The calls of the fetch-and-extract step (`downloadArtifacts`, `unzip`). -/
def Call.isFetch : Call → Bool
  | .newSession _ => true
  | .osCreate _ => true
  | .download _ _ _ => true
  | .closeFile _ => true
  | .zipOpenReader _ => true
  | .mkdirAll _ _ => true
  | .zipOpen _ => true
  | .closeReader _ => true
  | .openFile _ _ => true
  | .ioCopy _ _ => true
  | .log _ => true
  | _ => false

/-- The call is one of the deferred closes of `unzip`. -/
def Call.isClose : Call → Bool
  | .closeReader _ => true
  | .closeFile _ => true
  | _ => false

/-- The calls `unzip` makes: the extraction operations and the deferred
closes. -/
def Call.isUnzip : Call → Bool
  | .zipOpenReader _ => true
  | .mkdirAll _ _ => true
  | .zipOpen _ => true
  | .closeReader _ => true
  | .openFile _ _ => true
  | .ioCopy _ _ => true
  | .closeFile _ => true
  | _ => false

/-- The call is one of the extraction operations of `unzip`: opening the
archive, creating a directory, opening an entry, creating a target file,
copying the content. -/
def Call.isExtraction : Call → Bool
  | .zipOpenReader _ => true
  | .mkdirAll _ _ => true
  | .zipOpen _ => true
  | .openFile _ _ => true
  | .ioCopy _ _ => true
  | _ => false

/-- The path a call creates or writes to, when it is one that does. -/
def Call.writes : Call → Option String
  | .mkdirAll p _ => some p
  | .openFile p _ => some p
  | .ioCopy p _ => some p
  | _ => none

/-- The job identifier a signal call carries. -/
def Call.jobId : Call → Option String
  | .putJobFailureResult j => some j
  | .putJobSuccessResult j => some j
  | _ => none

/-- Lexical containment: the cleaned path `p` is the cleaned path `t` followed
by further elements, none of which is `..`. -/
def inside (t p : String) : Bool :=
  isRooted t == isRooted p && (cleanElements t).isPrefixOf (cleanElements p) &&
    !((cleanElements p).drop (cleanElements t).length).contains ".."

/-! ## A reference environment

The operating system is a tree of directories and regular files addressed by
absolute element lists, without links and without access checks (mode bits are
recorded, not enforced).  Files are created with the requested permission bits
less the umask; opening an existing file truncates it and leaves its mode
alone.  The AWS services and the archive decoder are given as functions. -/

/-- A node of the file tree. -/
inductive Node where
  | dir (perm : Nat)
  | file (perm : Nat) (data : Bytes)
deriving DecidableEq, Repr

/-- The file tree: what is found at an absolute path.  The root is always a
directory and is not looked up here. -/
abbrev Tree := List String → Option Node

/-- The fixed part of the reference environment. -/
structure Env where
  /-- working directory of the process -/
  cwd : List String
  /-- file-mode creation mask of the process -/
  umask : Nat
  /-- decoding of a zip archive, `none` when the bytes are not an archive -/
  decode : Bytes → Option (List ZipFile)
  /-- outcome of creating an SDK session -/
  session : Option ArtifactCredentials → Option Err
  /-- body of the object at a bucket and key, `none` when there is none -/
  object : String → String → Option Bytes
  /-- answer of the template validation service -/
  validate : Bytes → Option Err
  /-- answer of the orchestrator to a failure signal -/
  putFailure : String → Option Err
  /-- answer of the orchestrator to a success signal -/
  putSuccess : String → Option Err

/-- What is found at a path; the root is a directory. -/
def lookup (t : Tree) (k : List String) : Option Node :=
  if k = [] then some (.dir 0o755) else t k

/-- The tree with the node at `k` replaced. -/
def Tree.set (t : Tree) (k : List String) (n : Node) : Tree :=
  fun q => if q = k then some n else t q

/-- One step of path resolution; `acc` is the position so far, innermost
element first. -/
def walkStep (acc : List String) (e : String) : List String :=
  if e = "" ∨ e = "." then acc
  else if e = ".." then acc.tail
  else e :: acc

/-- The absolute element list a path names. -/
def resolve (env : Env) (p : String) : List String :=
  ((elements p).foldl walkStep (if isRooted p then [] else env.cwd.reverse)).reverse

/-- Permission bits `perm` less the bits of the umask. -/
def masked (perm umask : Nat) : Nat :=
  (perm % 0o1000) &&& (0o777 - umask % 0o1000)

/-- Open for writing with `O_CREATE|O_TRUNC`: an existing regular file is
truncated and keeps its mode, a missing one is created in an existing
directory with the masked mode. -/
def openWrite (env : Env) (t : Tree) (p : String) (perm : Nat) : Option Err × Tree :=
  if p = "" then (some "ENOENT", t)
  else
    match lookup t (resolve env p) with
    | some (.file m _) => (none, t.set (resolve env p) (.file m []))
    | some (.dir _) => (some "EISDIR", t)
    | none =>
      match lookup t (resolve env p).dropLast with
      | some (.dir _) => (none, t.set (resolve env p) (.file (masked perm env.umask) []))
      | some (.file _ _) => (some "ENOTDIR", t)
      | none => (some "ENOENT", t)

/-- Write `data` as the whole content of the open file at `p`. -/
def writeAll (env : Env) (t : Tree) (p : String) (data : Bytes) : Option Err × Tree :=
  match lookup t (resolve env p) with
  | some (.file m _) => (none, t.set (resolve env p) (.file m data))
  | _ => (some "EBADF", t)

/-- The recursion of `os.MkdirAll` on the path `rev.reverse`: an existing
directory is fine, an existing file is an error, and otherwise the parent is
made first and then the directory itself. -/
def mkdirAllRev (env : Env) (perm : Nat) : List String → Tree → Option Err × Tree
  | [], t => (none, t)
  | e :: parent, t =>
    match lookup t (e :: parent).reverse with
    | some (.dir _) => (none, t)
    | some (.file _ _) => (some "ENOTDIR", t)
    | none =>
      match mkdirAllRev env perm parent t with
      | (some err, t1) => (some err, t1)
      | (none, t1) =>
        match lookup t1 parent.reverse with
        | some (.dir _) => (none, t1.set (e :: parent).reverse (.dir (masked perm env.umask)))
        | some (.file _ _) => (some "ENOTDIR", t1)
        | none => (some "ENOENT", t1)

/-- The reference environment as a world over file trees. -/
def posix (env : Env) : World Tree := fun c t =>
  match c with
  | .newSession creds => (⟨env.session creds, [], []⟩, t)
  | .osCreate p => (⟨(openWrite env t p 0o666).1, [], []⟩, (openWrite env t p 0o666).2)
  | .download p b k =>
    match env.object b k with
    | none => (⟨some "NoSuchKey", [], []⟩, t)
    | some body => (⟨(writeAll env t p body).1, [], []⟩, (writeAll env t p body).2)
  | .closeFile _ => (⟨none, [], []⟩, t)
  | .zipOpenReader p =>
    match lookup t (resolve env p) with
    | some (.file _ d) =>
      match env.decode d with
      | some files => (⟨none, files, []⟩, t)
      | none => (⟨some "zip: not a valid zip file", [], []⟩, t)
    | some (.dir _) => (⟨some "EISDIR", [], []⟩, t)
    | none => (⟨some "ENOENT", [], []⟩, t)
  | .mkdirAll p perm =>
    if p = "" then (⟨some "ENOENT", [], []⟩, t)
    else (⟨(mkdirAllRev env perm.perm (resolve env p).reverse t).1, [], []⟩,
      (mkdirAllRev env perm.perm (resolve env p).reverse t).2)
  | .zipOpen _ => (⟨none, [], []⟩, t)
  | .closeReader _ => (⟨none, [], []⟩, t)
  | .openFile p perm => (⟨(openWrite env t p perm.perm).1, [], []⟩, (openWrite env t p perm.perm).2)
  | .ioCopy p f => (⟨(writeAll env t p f.data).1, [], []⟩, (writeAll env t p f.data).2)
  | .readFile p =>
    match lookup t (resolve env p) with
    | some (.file _ d) => (⟨none, [], d⟩, t)
    | some (.dir _) => (⟨some "EISDIR", [], []⟩, t)
    | none => (⟨some "ENOENT", [], []⟩, t)
  | .validateTemplate body => (⟨env.validate body, [], []⟩, t)
  | .putJobFailureResult j => (⟨env.putFailure j, [], []⟩, t)
  | .putJobSuccessResult j => (⟨env.putSuccess j, [], []⟩, t)
  | .log _ => (⟨none, [], []⟩, t)


/-- A cleaned path, innermost element first: elements that are not `..` above
a run of `..`, which is empty when the path is rooted; no element is empty,
is `.` or holds a `/`. -/
structure CleanStack (rooted : Bool) (acc : List String) : Prop where
  shape : ∃ ns k, acc = ns ++ List.replicate k ".." ∧ ".." ∉ ns ∧ (rooted = true → k = 0)
  normal : ∀ e ∈ acc, e ≠ "" ∧ e ≠ "." ∧ '/' ∉ e.data

/-! ## Archives with explicit directories -/

/-- The absolute path at which `unzip` extracts an entry into `target`. -/
def entryKey (env : Env) (target : String) (g : ZipFile) : List String :=
  resolve env (filepathJoin target g.name)

/-- The check behind `staged`, `pre` being the entries before the ones listed. -/
def stagedFrom (env : Env) (target : String) (pre : List ZipFile) : List ZipFile → Bool
  | [] => true
  | f :: post =>
    (resolve env target).isPrefixOf (entryKey env target f) &&
      (f.mode.isDir ||
        (entryKey env target f != resolve env target &&
          ((entryKey env target f).dropLast == resolve env target ||
            pre.any (fun g =>
              g.mode.isDir && (entryKey env target f).dropLast.isPrefixOf (entryKey env target g))) &&
          (pre ++ post).all (fun g =>
            !(entryKey env target f).isPrefixOf (entryKey env target g)))) &&
      stagedFrom env target (pre ++ [f]) post

/-- An archive whose directories are explicit: every entry is extracted at or
below the target; every file entry is extracted strictly below it, into the
target itself or into a directory on the path of a directory entry placed
before it; and no other entry is extracted at or below the path of a file
entry. -/
def staged (env : Env) (target : String) (files : List ZipFile) : Bool :=
  stagedFrom env target [] files

/-- The file tree during an extraction into the directory `target`, after the
entries `done`: the target is a directory; below it there is nothing but the
directories on the paths of the directory entries and the files of the file
entries; those directories exist, and each file has the content of its entry
and the mode of its entry less the umask. -/
structure Extracted (env : Env) (target : String) (done : List ZipFile) (tr : Tree) : Prop where
  root : ∃ m, lookup tr (resolve env target) = some (.dir m)
  nodes : ∀ q n, resolve env target <+: q → q ≠ resolve env target → lookup tr q = some n →
    (∃ g ∈ done, g.mode.isDir = true ∧ q <+: entryKey env target g ∧ ∃ m, n = .dir m) ∨
      ∃ f ∈ done, f.mode.isDir = false ∧ q = entryKey env target f
  dirs : ∀ g ∈ done, g.mode.isDir = true → ∀ q, resolve env target <+: q →
    q <+: entryKey env target g → ∃ m, lookup tr q = some (.dir m)
  files : ∀ f ∈ done, f.mode.isDir = false →
    lookup tr (entryKey env target f) = some (.file (masked f.mode.perm env.umask) f.data)

/-! ## Sample inputs -/

/-- An event for job `job-1` whose one input artifact is the object `K` of
bucket `B`. -/
def sampleEvent : CodePipelineEvent :=
  ⟨⟨"job-1", ⟨[⟨"merged", ⟨⟨"B", "K"⟩⟩⟩], ⟨"AKIA", "secret", "token"⟩⟩⟩⟩

/-- An event for job `job-2` without input artifacts. -/
def emptyEvent : CodePipelineEvent :=
  ⟨⟨"job-2", ⟨[], ⟨"AKIA", "secret", "token"⟩⟩⟩⟩

/-- An environment in which every service answers without error; the object
`B/K` is an archive holding the template `merged.yml`. -/
def goodEnv : Env where
  cwd := []
  umask := 0o022
  decode := fun _ => some [⟨"merged.yml", ⟨false, 0o644⟩, [1, 2, 3]⟩]
  session := fun _ => none
  object := fun b k => if b = "B" ∧ k = "K" then some [80, 75] else none
  validate := fun _ => none
  putFailure := fun _ => none
  putSuccess := fun _ => none

/-- The all-good environment, except that the success signal call fails. -/
def throttledEnv : Env := { goodEnv with putSuccess := fun _ => some "ThrottlingException" }

/-- The all-good environment, except that the template is rejected. -/
def invalidEnv : Env := { goodEnv with validate := fun _ => some "ValidationError" }

/-- The all-good environment, except that the bucket holds no object. -/
def missingEnv : Env := { goodEnv with object := fun _ _ => none }

/-- The all-good environment, except that no SDK session can be created. -/
def noSessionEnv : Env := { goodEnv with session := fun _ => some "SharedConfigLoadError" }

/-- The all-good environment with an archive that holds a `README.md` and no
template `merged.yml`. -/
def noTemplateEnv : Env :=
  { goodEnv with decode := fun _ => some [⟨"README.md", ⟨false, 0o644⟩, [35, 32, 104, 105]⟩] }

/-- The all-good environment with an archive that holds a directory entry
`merged.zip/` before the template. -/
def collidingEnv : Env :=
  { goodEnv with
    decode := fun _ => some [⟨"merged.zip/", ⟨true, 0o755⟩, []⟩,
      ⟨"merged.yml", ⟨false, 0o644⟩, [1, 2, 3]⟩] }

/-- The all-good environment with an archive whose one entry is named
`../evil.txt`. -/
def slipEnv : Env :=
  { goodEnv with decode := fun _ => some [⟨"../evil.txt", ⟨false, 0o644⟩, [6, 6, 6]⟩] }

/-- The all-good environment with the archive `{a/b.txt (644), a/c/d.txt (755)}`
without directory entries. -/
def inferredEnv : Env :=
  { goodEnv with
    decode := fun _ => some [⟨"a/b.txt", ⟨false, 0o644⟩, [1]⟩,
      ⟨"a/c/d.txt", ⟨false, 0o755⟩, [2]⟩] }

/-- The all-good environment with the archive `{a/b.txt (644), a/c/d.txt (755)}`
in which each directory is an entry placed before its files. -/
def explicitEnv : Env :=
  { goodEnv with
    decode := fun _ => some [⟨"a/", ⟨true, 0o755⟩, []⟩, ⟨"a/b.txt", ⟨false, 0o644⟩, [1]⟩,
      ⟨"a/c/", ⟨true, 0o755⟩, []⟩, ⟨"a/c/d.txt", ⟨false, 0o755⟩, [2]⟩] }

/-- A file tree holding `/tmp`, an archive `/tmp/merged.zip` and a template
`/tmp/merged.yml` left with mode 600 by an earlier run. -/
def staleTree : Tree := fun k =>
  if k = ["tmp"] then some (.dir 0o777)
  else if k = ["tmp", "merged.zip"] then some (.file 0o644 [80, 75])
  else if k = ["tmp", "merged.yml"] then some (.file 0o600 [9, 9, 9, 9])
  else none

/-- A file tree holding the directory `/tmp` and nothing else. -/
def tmpTree : Tree := fun k => if k = ["tmp"] then some (.dir 0o777) else none

/-- A file tree holding `/tmp`, an archive `/tmp/merged.zip` and an empty target
directory `/tmp/T`. -/
def zipTree : Tree := fun k =>
  if k = ["tmp"] then some (.dir 0o777)
  else if k = ["tmp", "merged.zip"] then some (.file 0o644 [80, 75])
  else if k = ["tmp", "T"] then some (.dir 0o755)
  else none

/-! ## The shape of an invocation -/

/-- The signal calls of a trace, in order. -/
def signals (tr : List Rec) : List Rec := tr.filter (fun x => x.call.isSignal)

/-- The records after the first signal call of a trace. -/
def afterSignal (tr : List Rec) : List Rec := (tr.dropWhile (fun x => !x.call.isSignal)).tail

/-- The records `fail` leaves when its signal call returns `e`: the log line,
the signal, and the second log line when the signal call did not fail. -/
def failTail (jobId : String) (e : Option Err) : List Rec :=
  ⟨.log "Sending fail signal to Code Pipeline", none⟩ :: ⟨.putJobFailureResult jobId, e⟩ ::
    (match e with
     | none => [⟨.log "Code Pipeline fail signal output", none⟩]
     | some _ => [])

/-- How `handler` ends after its deferred closure ran `fail` and the signal
call returned `e`: it returns nil, or the panic of `check` leaves it. -/
def failOut (e : Option Err) : Outcome (Option Err) :=
  match e with
  | none => .ret none
  | some err => .panic (.error err)

/-- The records of `validatecf` up to the validation call, which returns `e`. -/
def validateHead (body : Bytes) (e : Option Err) : List Rec :=
  [⟨.readFile localUnzipedArtifactPath, none⟩,
   ⟨.log "Validating cloud formation template", none⟩,
   ⟨.validateTemplate body, e⟩]

/-- The records from a successful validation up to the success signal, which
returns `e`. -/
def successHead (body : Bytes) (jobId : String) (e : Option Err) : List Rec :=
  validateHead body none ++
    [⟨.log "validation output", none⟩, ⟨.log "Done validating", none⟩,
     ⟨.log "Sending success signal to Code Pipeline", none⟩, ⟨.putJobSuccessResult jobId, e⟩]

/-- The ways the part of an invocation after the fetch step can go: the tail of
the trace and the outcome of `handler`. -/
inductive Ending (jobId : String) : List Rec → Outcome (Option Err) → Prop where
  /-- the template could not be read -/
  | readFailed (e : Err) (e2 : Option Err) :
      Ending jobId (⟨.readFile localUnzipedArtifactPath, some e⟩ :: failTail jobId e2) (failOut e2)
  /-- the validation service rejected the template -/
  | invalid (body : Bytes) (e : Err) (e2 : Option Err) :
      Ending jobId (validateHead body (some e) ++ failTail jobId e2) (failOut e2)
  /-- the template is valid and the success signal went through -/
  | reported (body : Bytes) :
      Ending jobId (successHead body jobId none ++
        [⟨.log "Code Pipeline success signal output", none⟩]) (.ret none)
  /-- the template is valid and the success signal call failed -/
  | unreported (body : Bytes) (e : Err) (e2 : Option Err) :
      Ending jobId (successHead body jobId (some e) ++ failTail jobId e2) (failOut e2)

/-! ## Running computations -/

section Generic

variable {σ : Type}

theorem bind_run {α β : Type} (m : Go σ α) (f : α → Go σ β) (s : σ) :
    (m >>= f) s = Go.bind m f s := rfl

theorem pure_run {α : Type} (a : α) (s : σ) : (pure a : Go σ α) s = ⟨.ret a, s, []⟩ := rfl

theorem unzipLoop_nil (w : World σ) (target : String) (defers : List Call) (s : σ) :
    unzipLoop w target [] defers s = ⟨.ret (none, defers), s, []⟩ := rfl

theorem unzipLoop_dir (w : World σ) (target : String) (file : ZipFile) (rest : List ZipFile)
    (defers : List Call) (s : σ) (h : file.mode.isDir = true) :
    unzipLoop w target (file :: rest) defers s =
      ⟨(unzipLoop w target rest defers
          (w (.mkdirAll (filepathJoin target file.name) file.mode) s).2).out,
       (unzipLoop w target rest defers
          (w (.mkdirAll (filepathJoin target file.name) file.mode) s).2).state,
       ⟨.mkdirAll (filepathJoin target file.name) file.mode,
          (w (.mkdirAll (filepathJoin target file.name) file.mode) s).1.err⟩ ::
        (unzipLoop w target rest defers
          (w (.mkdirAll (filepathJoin target file.name) file.mode) s).2).trace⟩ := by
  simp only [unzipLoop, h, if_true, bind_run, Go.bind, call, List.singleton_append]

theorem unzipLoop_openErr (w : World σ) (target : String) (file : ZipFile) (rest : List ZipFile)
    (defers : List Call) (s : σ) (h : file.mode.isDir = false) (e : Err)
    (h1 : (w (.zipOpen file) s).1.err = some e) :
    unzipLoop w target (file :: rest) defers s =
      ⟨.ret (some e, defers), (w (.zipOpen file) s).2, [⟨.zipOpen file, some e⟩]⟩ := by
  simp [unzipLoop, h, bind_run, Go.bind, call, h1, pure_run]

theorem unzipLoop_createErr (w : World σ) (target : String) (file : ZipFile) (rest : List ZipFile)
    (defers : List Call) (s : σ) (h : file.mode.isDir = false) (e : Err)
    (h1 : (w (.zipOpen file) s).1.err = none)
    (h2 : (w (.openFile (filepathJoin target file.name) file.mode) (w (.zipOpen file) s).2).1.err
      = some e) :
    unzipLoop w target (file :: rest) defers s =
      ⟨.ret (some e, .closeReader file :: defers),
       (w (.openFile (filepathJoin target file.name) file.mode) (w (.zipOpen file) s).2).2,
       [⟨.zipOpen file, none⟩, ⟨.openFile (filepathJoin target file.name) file.mode, some e⟩]⟩ := by
  simp [unzipLoop, h, bind_run, Go.bind, call, h1, h2, pure_run]

theorem unzipLoop_copyErr (w : World σ) (target : String) (file : ZipFile) (rest : List ZipFile)
    (defers : List Call) (s : σ) (h : file.mode.isDir = false) (e : Err)
    (h1 : (w (.zipOpen file) s).1.err = none)
    (h2 : (w (.openFile (filepathJoin target file.name) file.mode) (w (.zipOpen file) s).2).1.err
      = none)
    (h3 : (w (.ioCopy (filepathJoin target file.name) file)
      (w (.openFile (filepathJoin target file.name) file.mode) (w (.zipOpen file) s).2).2).1.err
      = some e) :
    unzipLoop w target (file :: rest) defers s =
      ⟨.ret (some e, .closeFile (filepathJoin target file.name) :: .closeReader file :: defers),
       (w (.ioCopy (filepathJoin target file.name) file)
        (w (.openFile (filepathJoin target file.name) file.mode) (w (.zipOpen file) s).2).2).2,
       [⟨.zipOpen file, none⟩, ⟨.openFile (filepathJoin target file.name) file.mode, none⟩,
        ⟨.ioCopy (filepathJoin target file.name) file, some e⟩]⟩ := by
  simp [unzipLoop, h, bind_run, Go.bind, call, h1, h2, h3, pure_run]

theorem unzipLoop_file (w : World σ) (target : String) (file : ZipFile) (rest : List ZipFile)
    (defers : List Call) (s : σ) (h : file.mode.isDir = false)
    (h1 : (w (.zipOpen file) s).1.err = none)
    (h2 : (w (.openFile (filepathJoin target file.name) file.mode) (w (.zipOpen file) s).2).1.err
      = none)
    (h3 : (w (.ioCopy (filepathJoin target file.name) file)
      (w (.openFile (filepathJoin target file.name) file.mode) (w (.zipOpen file) s).2).2).1.err
      = none) :
    unzipLoop w target (file :: rest) defers s =
      ⟨(unzipLoop w target rest
          (.closeFile (filepathJoin target file.name) :: .closeReader file :: defers)
          (w (.ioCopy (filepathJoin target file.name) file)
            (w (.openFile (filepathJoin target file.name) file.mode)
              (w (.zipOpen file) s).2).2).2).out,
       (unzipLoop w target rest
          (.closeFile (filepathJoin target file.name) :: .closeReader file :: defers)
          (w (.ioCopy (filepathJoin target file.name) file)
            (w (.openFile (filepathJoin target file.name) file.mode)
              (w (.zipOpen file) s).2).2).2).state,
       ⟨.zipOpen file, none⟩ :: ⟨.openFile (filepathJoin target file.name) file.mode, none⟩ ::
        ⟨.ioCopy (filepathJoin target file.name) file, none⟩ ::
        (unzipLoop w target rest
          (.closeFile (filepathJoin target file.name) :: .closeReader file :: defers)
          (w (.ioCopy (filepathJoin target file.name) file)
            (w (.openFile (filepathJoin target file.name) file.mode)
              (w (.zipOpen file) s).2).2).2).trace⟩ := by
  simp [unzipLoop, h, bind_run, Go.bind, call, h1, h2, h3, pure_run]


theorem unzipLoop_spec (w : World σ) (target : String) (files : List ZipFile) :
    ∀ (defers : List Call) (s : σ), (∀ c ∈ defers, c.isUnzip = true) →
      (∃ v, (unzipLoop w target files defers s).out = .ret v ∧ ∀ c ∈ v.2, c.isUnzip = true) ∧
      ∀ x ∈ (unzipLoop w target files defers s).trace, x.call.isUnzip = true := by
  induction files with
  | nil => intro defers s hd; simpa [unzipLoop_nil] using hd
  | cons file rest ih =>
    intro defers s hd
    cases h : file.mode.isDir with
    | true =>
      rw [unzipLoop_dir w target file rest defers s h]
      have := ih defers (w (.mkdirAll (filepathJoin target file.name) file.mode) s).2 hd
      refine ⟨this.1, ?_⟩
      intro x hx
      simp only [List.mem_cons] at hx
      rcases hx with rfl | hx
      · rfl
      · exact this.2 x hx
    | false =>
      cases h1 : (w (.zipOpen file) s).1.err with
      | some e =>
        rw [unzipLoop_openErr w target file rest defers s h e h1]
        simpa [Call.isUnzip] using hd
      | none =>
        cases h2 : (w (.openFile (filepathJoin target file.name) file.mode)
            (w (.zipOpen file) s).2).1.err with
        | some e =>
          rw [unzipLoop_createErr w target file rest defers s h e h1 h2]
          simpa [Call.isUnzip] using hd
        | none =>
          cases h3 : (w (.ioCopy (filepathJoin target file.name) file)
              (w (.openFile (filepathJoin target file.name) file.mode)
                (w (.zipOpen file) s).2).2).1.err with
          | some e =>
            rw [unzipLoop_copyErr w target file rest defers s h e h1 h2 h3]
            simpa [Call.isUnzip] using hd
          | none =>
            rw [unzipLoop_file w target file rest defers s h h1 h2 h3]
            have := ih (.closeFile (filepathJoin target file.name) :: .closeReader file :: defers)
              (w (.ioCopy (filepathJoin target file.name) file)
                (w (.openFile (filepathJoin target file.name) file.mode)
                  (w (.zipOpen file) s).2).2).2
              (by simpa [Call.isUnzip] using hd)
            refine ⟨this.1, ?_⟩
            intro x hx
            simp only [List.mem_cons] at hx
            rcases hx with rfl | rfl | rfl | hx
            · rfl
            · rfl
            · rfl
            · exact this.2 x hx

theorem runDefers_spec (w : World σ) (cs : List Call) (hcs : ∀ c ∈ cs, c.isUnzip = true) :
    ∀ s : σ, (runDefers w cs s).out = .ret () ∧
      ∀ x ∈ (runDefers w cs s).trace, x.call.isUnzip = true := by
  induction cs with
  | nil => intro s; simp [runDefers, pure_run]
  | cons c cs ih =>
    intro s
    have hc := hcs c (by simp)
    have ih1 := ih (fun c hc => hcs c (by simp [hc])) (w c s).2
    simp only [runDefers, bind_run, Go.bind, call]
    refine ⟨ih1.1, ?_⟩
    intro x hx
    simp only [List.mem_append, List.mem_singleton] at hx
    rcases hx with rfl | hx
    · exact hc
    · exact ih1.2 x hx

/-- `unzip` never panics, and makes only extraction calls and closes. -/
theorem unzip_spec (w : World σ) (archive target : String) (s : σ) :
    (∃ e, (unzip w archive target s).out = .ret e) ∧
      ∀ x ∈ (unzip w archive target s).trace, x.call.isUnzip = true := by
  cases h1 : (w (.zipOpenReader archive) s).1.err with
  | some e => simp [unzip, bind_run, Go.bind, call, h1, pure_run, Call.isUnzip]
  | none =>
    cases h2 : (w (.mkdirAll target ⟨false, 0o755⟩) (w (.zipOpenReader archive) s).2).1.err with
    | some e => simp [unzip, bind_run, Go.bind, call, h1, h2, pure_run, Call.isUnzip]
    | none =>
      obtain ⟨⟨v, hv, hvd⟩, htr⟩ := unzipLoop_spec w target (w (.zipOpenReader archive) s).1.files []
        (w (.mkdirAll target ⟨false, 0o755⟩) (w (.zipOpenReader archive) s).2).2 (by simp)
      obtain ⟨hro, hrt⟩ := runDefers_spec w v.2 hvd
        (unzipLoop w target (w (.zipOpenReader archive) s).1.files []
          (w (.mkdirAll target ⟨false, 0o755⟩) (w (.zipOpenReader archive) s).2).2).state
      simp only [unzip, bind_run, Go.bind, call, h1, h2, pure_run, hv, hro]
      refine ⟨⟨_, rfl⟩, ?_⟩
      intro x hx
      simp only [List.mem_append, List.mem_singleton, List.append_nil] at hx
      rcases hx with rfl | rfl | hx | hx
      · rfl
      · rfl
      · exact htr x hx
      · exact hrt x hx

theorem isUnzip_isFetch (c : Call) (h : c.isUnzip = true) : c.isFetch = true := by
  cases c <;> simp_all [Call.isUnzip, Call.isFetch]

theorem isUnzip_not_download (c : Call) (h : c.isUnzip = true) : c.isDownload = false := by
  cases c <;> simp_all [Call.isUnzip, Call.isDownload]

/-- With no input artifact `downloadArtifacts` panics in `bucket`, before any
call is made. -/
theorem downloadArtifacts_empty (w : World σ) (ev : CodePipelineEvent) (s : σ)
    (h : ev.codePipelineJob.data.inputArtifacts = []) :
    downloadArtifacts w ev s = ⟨.panic .indexOutOfRange, s, []⟩ := by
  simp [downloadArtifacts, bucket, h, bind_run, Go.bind, raise]

/-- The calls of `downloadArtifacts` are fetch calls, and when it returns the
download it made returned no error. -/
theorem downloadArtifacts_spec (w : World σ) (ev : CodePipelineEvent) (s : σ) :
    (∀ x ∈ (downloadArtifacts w ev s).trace, x.call.isFetch = true) ∧
      ((downloadArtifacts w ev s).out = .ret () →
        ∀ x ∈ (downloadArtifacts w ev s).trace, x.call.isDownload = true → x.err = none) := by
  cases ha : ev.codePipelineJob.data.inputArtifacts with
  | nil => simp [downloadArtifacts_empty w ev s ha]
  | cons a as =>
    cases h1 : (w (.newSession (some (creds ev))) s).1.err with
    | some e =>
      simp [downloadArtifacts, bucket, ha, bind_run, Go.bind, pure_run, sessionMust, call, check,
        raise, h1, Call.isFetch]
    | none =>
      cases h2 : (w (.osCreate localZippedArtifactPath)
          (w (.newSession (some (creds ev))) s).2).1.err with
      | some e =>
        simp [downloadArtifacts, bucket, ha, bind_run, Go.bind, pure_run, sessionMust, call,
          check, raise, h1, h2, logLine, Call.isFetch]
      | none =>
        cases h3 : (w (.download localZippedArtifactPath a.location.s3Location.bucketName
            a.location.s3Location.objectKey) (w (.osCreate localZippedArtifactPath)
              (w (.newSession (some (creds ev))) s).2).2).1.err with
        | some e =>
          simp [downloadArtifacts, bucket, ha, bind_run, Go.bind, pure_run, sessionMust, call,
            check, raise, h1, h2, h3, logLine, deferring, Call.isFetch]
        | none =>
          obtain ⟨⟨e, he⟩, htr⟩ := unzip_spec w localZippedArtifactPath "/tmp"
            (w (.download localZippedArtifactPath a.location.s3Location.bucketName
              a.location.s3Location.objectKey) (w (.osCreate localZippedArtifactPath)
                (w (.newSession (some (creds ev))) s).2).2).2
          cases e with
          | some e =>
            simp only [downloadArtifacts, bucket, ha, bind_run, Go.bind, pure_run, sessionMust,
              call, check, raise, h1, h2, h3, logLine, deferring, he]
            simp only [List.mem_append, List.mem_cons, List.mem_singleton, List.append_nil,
              List.not_mem_nil, or_false, false_or, reduceCtorEq, false_implies, and_true]
            rintro x (rfl | rfl | rfl | (rfl | hx) | rfl)
            · rfl
            · rfl
            · rfl
            · rfl
            · exact isUnzip_isFetch _ (htr x hx)
            · rfl
          | none =>
            simp only [downloadArtifacts, bucket, ha, bind_run, Go.bind, pure_run, sessionMust,
              call, check, raise, h1, h2, h3, logLine, deferring, he]
            simp only [List.mem_append, List.mem_cons, List.mem_singleton, List.append_nil,
              List.not_mem_nil, or_false, false_or, true_implies]
            constructor
            · rintro x (rfl | rfl | rfl | (rfl | hx) | rfl)
              · rfl
              · rfl
              · rfl
              · rfl
              · exact isUnzip_isFetch _ (htr x hx)
              · rfl
            · rintro x (rfl | rfl | rfl | (rfl | hx) | rfl) hd
              · simp [Call.isDownload] at hd
              · simp [Call.isDownload] at hd
              · simp [Call.isDownload] at hd
              · rfl
              · have := isUnzip_not_download _ (htr x hx)
                simp [this] at hd
              · simp [Call.isDownload] at hd

/-- What `handler` does after the fetch step: `validatecf`, then `success`. -/
theorem handler_body (w : World σ) (ev : CodePipelineEvent) :
    (do downloadArtifacts w ev; validatecf w; success w ev; pure none : Go σ (Option Err)) =
      (downloadArtifacts w ev >>= fun _ =>
        (do validatecf w; success w ev; pure none : Go σ (Option Err))) := rfl

/-- When the body panics the deferred closure runs `fail`. -/
theorem recovering_fail_panic (w : World σ) (ev : CodePipelineEvent)
    (body : Go σ (Option Err)) (s : σ) (p : Panic) (h : (body s).out = .panic p) :
    (recovering (fail w ev) none body s).trace = (body s).trace ++
        failTail ev.codePipelineJob.id
          (w (.putJobFailureResult ev.codePipelineJob.id) (body s).state).1.err ∧
      (recovering (fail w ev) none body s).out =
        failOut (w (.putJobFailureResult ev.codePipelineJob.id) (body s).state).1.err := by
  cases he : (w (.putJobFailureResult ev.codePipelineJob.id) (body s).state).1.err <;>
    simp [recovering, h, fail, bind_run, Go.bind, call, check, raise, pure_run, logLine, he,
      failTail, failOut]

/-- When the first part of the body returns, recovery concerns the rest. -/
theorem recovering_bind_ret {α : Type} (h : Go σ Unit) (m : Go σ α) (f : α → Go σ (Option Err))
    (s : σ) (a : α) (hm : (m s).out = .ret a) :
    (recovering h none (m >>= f) s).trace =
        (m s).trace ++ (recovering h none (f a) (m s).state).trace ∧
      (recovering h none (m >>= f) s).out = (recovering h none (f a) (m s).state).out := by
  cases h1 : (f a (m s).state).out with
  | ret v => simp [recovering, bind_run, Go.bind, hm, h1]
  | panic p =>
    cases h2 : (h (f a (m s).state).state).out <;>
      simp [recovering, bind_run, Go.bind, hm, h1, h2]

/-- When the first part of the body panics, the rest is skipped. -/
theorem bind_panic {α β : Type} (m : Go σ α) (f : α → Go σ β) (s : σ) (p : Panic)
    (hm : (m s).out = .panic p) :
    (m >>= f) s = ⟨.panic p, (m s).state, (m s).trace⟩ := by
  simp [bind_run, Go.bind, hm]

/-- After the fetch step an invocation ends in one of four ways. -/
theorem finish_ending (w : World σ) (ev : CodePipelineEvent) (t : σ) :
    Ending ev.codePipelineJob.id
      (recovering (fail w ev) none
        (do validatecf w; success w ev; pure none : Go σ (Option Err)) t).trace
      (recovering (fail w ev) none
        (do validatecf w; success w ev; pure none : Go σ (Option Err)) t).out := by
  cases h1 : (w (.readFile localUnzipedArtifactPath) t).1.err with
  | some e =>
    have hb : ((do validatecf w; success w ev; pure none : Go σ (Option Err)) t).out =
        .panic (.error e) := by
      simp [validatecf, bind_run, Go.bind, call, check, raise, h1]
    have ht : ((do validatecf w; success w ev; pure none : Go σ (Option Err)) t).trace =
        [⟨.readFile localUnzipedArtifactPath, some e⟩] := by
      simp [validatecf, bind_run, Go.bind, call, check, raise, h1]
    obtain ⟨htr, hout⟩ := recovering_fail_panic w ev _ t _ hb
    rw [htr, hout, ht]
    exact Ending.readFailed e _
  | none =>
    cases h2 : (w (.validateTemplate (w (.readFile localUnzipedArtifactPath) t).1.data)
        (w (.readFile localUnzipedArtifactPath) t).2).1.err with
    | some e =>
      have hb : ((do validatecf w; success w ev; pure none : Go σ (Option Err)) t).out =
          .panic (.error e) := by
        simp [validatecf, bind_run, Go.bind, call, check, raise, h1, h2, pure_run, logLine]
      have ht : ((do validatecf w; success w ev; pure none : Go σ (Option Err)) t).trace =
          validateHead (w (.readFile localUnzipedArtifactPath) t).1.data (some e) := by
        simp [validatecf, bind_run, Go.bind, call, check, raise, h1, h2, pure_run, logLine,
          validateHead]
      obtain ⟨htr, hout⟩ := recovering_fail_panic w ev _ t _ hb
      rw [htr, hout, ht]
      exact Ending.invalid _ e _
    | none =>
      cases h3 : (w (.putJobSuccessResult ev.codePipelineJob.id)
          (w (.validateTemplate (w (.readFile localUnzipedArtifactPath) t).1.data)
            (w (.readFile localUnzipedArtifactPath) t).2).2).1.err with
      | some e =>
        have hb : ((do validatecf w; success w ev; pure none : Go σ (Option Err)) t).out =
            .panic (.error e) := by
          simp [validatecf, success, bind_run, Go.bind, call, check, raise, h1, h2, h3, pure_run,
            logLine]
        have ht : ((do validatecf w; success w ev; pure none : Go σ (Option Err)) t).trace =
            successHead (w (.readFile localUnzipedArtifactPath) t).1.data
              ev.codePipelineJob.id (some e) := by
          simp [validatecf, success, bind_run, Go.bind, call, check, raise, h1, h2, h3, pure_run,
            logLine, successHead, validateHead]
        obtain ⟨htr, hout⟩ := recovering_fail_panic w ev _ t _ hb
        rw [htr, hout, ht]
        exact Ending.unreported _ e _
      | none =>
        have hb : (recovering (fail w ev) none
            (do validatecf w; success w ev; pure none : Go σ (Option Err)) t).out =
            .ret none := by
          simp [recovering, validatecf, success, bind_run, Go.bind, call, check, raise, h1, h2,
            h3, pure_run, logLine]
        have ht : (recovering (fail w ev) none
            (do validatecf w; success w ev; pure none : Go σ (Option Err)) t).trace =
            successHead (w (.readFile localUnzipedArtifactPath) t).1.data
              ev.codePipelineJob.id none ++
              [⟨.log "Code Pipeline success signal output", none⟩] := by
          simp [recovering, validatecf, success, bind_run, Go.bind, call, check, raise, h1, h2,
            h3, pure_run, logLine, successHead, validateHead]
        rw [hb, ht]
        exact Ending.reported _

/-- Once the session exists, `handler` is its recovered body. -/
theorem handler_run (w : World σ) (ev : CodePipelineEvent) (s : σ)
    (hs : (w (.newSession none) s).1.err = none) :
    (handler w ev s).trace = ⟨.newSession none, none⟩ ::
        (recovering (fail w ev) none
          (do downloadArtifacts w ev; validatecf w; success w ev; pure none : Go σ (Option Err))
          (w (.newSession none) s).2).trace ∧
      (handler w ev s).out =
        (recovering (fail w ev) none
          (do downloadArtifacts w ev; validatecf w; success w ev; pure none : Go σ (Option Err))
          (w (.newSession none) s).2).out := by
  simp [handler, bind_run, Go.bind, sessionMust, call, check, hs, pure_run]

/-- When the session cannot be created, `handler` panics before its recovering
closure is deferred and makes no other call. -/
theorem handler_no_session (w : World σ) (ev : CodePipelineEvent) (s : σ) (e : Err)
    (hs : (w (.newSession none) s).1.err = some e) :
    (handler w ev s).trace = [⟨.newSession none, some e⟩] ∧
      (handler w ev s).out = .panic (.error e) := by
  simp [handler, bind_run, Go.bind, sessionMust, call, check, raise, hs]

/-- Once the fetch step returned, the template is read: when the world answers
that read with an error, the failed read is a record of the invocation. -/
theorem handler_read_failed (w : World σ) (ev : CodePipelineEvent) (s : σ)
    (hs : (w (.newSession none) s).1.err = none)
    (hda : (downloadArtifacts w ev (w (.newSession none) s).2).out = .ret ()) (e : Err)
    (hr : (w (.readFile localUnzipedArtifactPath)
      (downloadArtifacts w ev (w (.newSession none) s).2).state).1.err = some e) :
    (⟨.readFile localUnzipedArtifactPath, some e⟩ : Rec) ∈ (handler w ev s).trace := by
  obtain ⟨htr, -⟩ := handler_run w ev s hs
  obtain ⟨h1, -⟩ := recovering_bind_ret (fail w ev) (downloadArtifacts w ev)
    (fun _ => (do validatecf w; success w ev; pure none : Go σ (Option Err)))
    (w (.newSession none) s).2 () hda
  have hb : ((do validatecf w; success w ev; pure none : Go σ (Option Err))
      (downloadArtifacts w ev (w (.newSession none) s).2).state).out = .panic (.error e) := by
    simp [validatecf, bind_run, Go.bind, call, check, raise, hr]
  have ht : ((do validatecf w; success w ev; pure none : Go σ (Option Err))
      (downloadArtifacts w ev (w (.newSession none) s).2).state).trace =
      [⟨.readFile localUnzipedArtifactPath, some e⟩] := by
    simp [validatecf, bind_run, Go.bind, call, check, raise, hr]
  obtain ⟨h2, -⟩ := recovering_fail_panic w ev _
    (downloadArtifacts w ev (w (.newSession none) s).2).state _ hb
  rw [htr, handler_body, h1, h2, ht]
  simp

/-- The shape of every invocation in which the session is created: the fetch
calls, then either the failure signal alone (the fetch step panicked) or one of
the four endings. -/
theorem handler_shape (w : World σ) (ev : CodePipelineEvent) (s : σ)
    (hs : (w (.newSession none) s).1.err = none) :
    ∃ D tail, (handler w ev s).trace = ⟨.newSession none, none⟩ :: (D ++ tail) ∧
      (∀ x ∈ D, x.call.isFetch = true) ∧
      ((∃ e2, tail = failTail ev.codePipelineJob.id e2 ∧ (handler w ev s).out = failOut e2) ∨
        ((∀ x ∈ D, x.call.isDownload = true → x.err = none) ∧
          Ending ev.codePipelineJob.id tail (handler w ev s).out)) := by
  obtain ⟨htr, hout⟩ := handler_run w ev s hs
  obtain ⟨hD1, hD2⟩ := downloadArtifacts_spec w ev (w (.newSession none) s).2
  refine ⟨(downloadArtifacts w ev (w (.newSession none) s).2).trace, ?_⟩
  rw [htr, hout, handler_body]
  cases hr : (downloadArtifacts w ev (w (.newSession none) s).2).out with
  | panic p =>
    have hb := bind_panic (downloadArtifacts w ev)
      (fun _ => (do validatecf w; success w ev; pure none : Go σ (Option Err)))
      (w (.newSession none) s).2 p hr
    obtain ⟨h1, h2⟩ := recovering_fail_panic w ev
      (downloadArtifacts w ev >>= fun _ =>
        (do validatecf w; success w ev; pure none : Go σ (Option Err)))
      (w (.newSession none) s).2 p (by rw [hb])
    rw [h1, h2, hb]
    exact ⟨_, rfl, hD1, Or.inl ⟨_, rfl, rfl⟩⟩
  | ret u =>
    obtain ⟨h1, h2⟩ := recovering_bind_ret (fail w ev) (downloadArtifacts w ev)
      (fun _ => (do validatecf w; success w ev; pure none : Go σ (Option Err)))
      (w (.newSession none) s).2 u hr
    rw [h1, h2]
    exact ⟨_, rfl, hD1, Or.inr ⟨hD2 hr, finish_ending w ev _⟩⟩

theorem isFetch_not_signal (c : Call) (h : c.isFetch = true) : c.isSignal = false := by
  cases c <;> simp_all [Call.isFetch, Call.isSignal]

/-- A trace with one signal call, preceded by none and followed by log lines. -/
theorem signals_split (pre post : List Rec) (sig : Rec)
    (hpre : ∀ x ∈ pre, x.call.isSignal = false) (hsig : sig.call.isSignal = true)
    (hpost : ∀ x ∈ post, x.call.isLog = true) :
    (signals (pre ++ sig :: post)).length = 1 ∧
      ∀ x ∈ afterSignal (pre ++ sig :: post), x.call.isLog = true := by
  have hpost2 : ∀ x ∈ post, x.call.isSignal = false := by
    intro x hx
    have := hpost x hx
    cases hc : x.call <;> simp_all [Call.isLog, Call.isSignal]
  constructor
  · have h1 : pre.filter (fun x => x.call.isSignal) = [] := by
      rw [List.filter_eq_nil_iff]
      intro x hx
      simp [hpre x hx]
    have h2 : post.filter (fun x => x.call.isSignal) = [] := by
      rw [List.filter_eq_nil_iff]
      intro x hx
      simp [hpost2 x hx]
    simp [signals, List.filter_append, List.filter_cons, h1, h2, hsig]
  · have h3 : (pre ++ sig :: post).dropWhile (fun x => !x.call.isSignal) = sig :: post := by
      induction pre with
      | nil => simp [List.dropWhile, hsig]
      | cons a pre ih =>
        have ha := hpre a (by simp)
        simp only [List.cons_append, List.dropWhile, ha, Bool.not_false]
        exact ih (fun x hx => hpre x (by simp [hx]))
    simpa [afterSignal, h3] using hpost

/-- A trace that ends with the records of `fail` and has no signal before. -/
theorem one_signal_fail (pre : List Rec) (jobId : String) (e2 : Option Err)
    (hpre : ∀ x ∈ pre, x.call.isSignal = false)
    (hsig : ∀ x ∈ pre ++ failTail jobId e2, x.call.isSignal = true → x.err = none) :
    (signals (pre ++ failTail jobId e2)).length = 1 ∧
      ∀ x ∈ afterSignal (pre ++ failTail jobId e2), x.call.isLog = true := by
  cases e2 with
  | some e =>
    have := hsig ⟨.putJobFailureResult jobId, some e⟩ (by simp [failTail]) rfl
    simp at this
  | none =>
    have h : pre ++ failTail jobId none =
        (pre ++ [⟨.log "Sending fail signal to Code Pipeline", none⟩]) ++
          ⟨.putJobFailureResult jobId, none⟩ ::
            [⟨.log "Code Pipeline fail signal output", none⟩] := by
      simp [failTail]
    rw [h]
    apply signals_split
    · intro x hx
      simp only [List.mem_append, List.mem_singleton] at hx
      rcases hx with hx | rfl
      · exact hpre x hx
      · rfl
    · rfl
    · intro x hx
      simp only [List.mem_singleton] at hx
      subst hx
      rfl

/-- The records of `fail`: one failure signal for the job, no other service
call. -/
theorem failTail_mem (jobId : String) (e2 : Option Err) (x : Rec) (hx : x ∈ failTail jobId e2) :
    x = ⟨.putJobFailureResult jobId, e2⟩ ∨ x.call.isLog = true := by
  cases e2 <;> simp only [failTail, List.mem_cons, List.mem_singleton, List.not_mem_nil,
    or_false] at hx <;> rcases hx with rfl | rfl | rfl <;> simp [Call.isLog]

theorem failTail_has (jobId : String) (e2 : Option Err) :
    (⟨.putJobFailureResult jobId, e2⟩ : Rec) ∈ failTail jobId e2 := by
  simp [failTail]

/-- The records before the validation call's answer. -/
theorem validateHead_mem (body : Bytes) (e : Option Err) (x : Rec)
    (hx : x ∈ validateHead body e) :
    x = ⟨.readFile localUnzipedArtifactPath, none⟩ ∨ x = ⟨.validateTemplate body, e⟩ ∨
      x.call.isLog = true := by
  simp only [validateHead, List.mem_cons, List.mem_singleton, List.not_mem_nil, or_false] at hx
  rcases hx with rfl | rfl | rfl <;> simp [Call.isLog]

/-- The records up to the success signal. -/
theorem successHead_mem (body : Bytes) (jobId : String) (e : Option Err) (x : Rec)
    (hx : x ∈ successHead body jobId e) :
    x = ⟨.readFile localUnzipedArtifactPath, none⟩ ∨ x = ⟨.validateTemplate body, none⟩ ∨
      x = ⟨.putJobSuccessResult jobId, e⟩ ∨ x.call.isLog = true := by
  simp only [successHead, validateHead, List.mem_cons, List.mem_singleton, List.not_mem_nil,
    or_false, List.mem_append] at hx
  rcases hx with (rfl | rfl | rfl) | rfl | rfl | rfl | rfl <;> simp [Call.isLog]

/-- The service calls of an ending, read off its records: every record is the
read of the template, a validation call, a signal for the job, or a log line;
and the signals sent are as the ending says. -/
theorem Ending.mem {jobId : String} {tail : List Rec} {o : Outcome (Option Err)}
    (h : Ending jobId tail o) (x : Rec) (hx : x ∈ tail) :
    x.call = .readFile localUnzipedArtifactPath ∨ x.call.isValidate = true ∨
      x.call = .putJobFailureResult jobId ∨ x.call = .putJobSuccessResult jobId ∨
      x.call.isLog = true := by
  cases h with
  | readFailed e e2 =>
    simp only [List.mem_cons] at hx
    rcases hx with rfl | hx
    · simp
    · rcases failTail_mem _ _ _ hx with rfl | h <;> simp_all
  | invalid body e e2 =>
    simp only [List.mem_append] at hx
    rcases hx with hx | hx
    · rcases validateHead_mem _ _ _ hx with rfl | rfl | h <;> simp_all [Call.isValidate]
    · rcases failTail_mem _ _ _ hx with rfl | h <;> simp_all
  | reported body =>
    simp only [List.mem_append, List.mem_singleton] at hx
    rcases hx with hx | rfl
    · rcases successHead_mem _ _ _ _ hx with rfl | rfl | rfl | h <;> simp_all [Call.isValidate]
    · simp [Call.isLog]
  | unreported body e e2 =>
    simp only [List.mem_append] at hx
    rcases hx with hx | hx
    · rcases successHead_mem _ _ _ _ hx with rfl | rfl | rfl | h <;> simp_all [Call.isValidate]
    · rcases failTail_mem _ _ _ hx with rfl | h <;> simp_all

/-- Every trace of `handler` starts with the creation of the session. -/
theorem handler_trace_cases (w : World σ) (ev : CodePipelineEvent) (s : σ) :
    (∃ e, (w (.newSession none) s).1.err = some e ∧
        (handler w ev s).trace = [⟨.newSession none, some e⟩] ∧
        (handler w ev s).out = .panic (.error e)) ∨
      ((w (.newSession none) s).1.err = none ∧
        ∃ D tail, (handler w ev s).trace = ⟨.newSession none, none⟩ :: (D ++ tail) ∧
          (∀ x ∈ D, x.call.isFetch = true) ∧
          ((∃ e2, tail = failTail ev.codePipelineJob.id e2 ∧
              (handler w ev s).out = failOut e2) ∨
            ((∀ x ∈ D, x.call.isDownload = true → x.err = none) ∧
              Ending ev.codePipelineJob.id tail (handler w ev s).out))) := by
  cases hs : (w (.newSession none) s).1.err with
  | some e => exact Or.inl ⟨e, rfl, handler_no_session w ev s e hs⟩
  | none => exact Or.inr ⟨rfl, handler_shape w ev s hs⟩

/-- Every call of `handler` is a fetch call, the read of the template, a
validation call, a signal for the job of the event, or a log line. -/
theorem handler_mem (w : World σ) (ev : CodePipelineEvent) (s : σ) (x : Rec)
    (hx : x ∈ (handler w ev s).trace) :
    x.call.isFetch = true ∨ x.call = .readFile localUnzipedArtifactPath ∨
      x.call.isValidate = true ∨ x.call = .putJobFailureResult ev.codePipelineJob.id ∨
      x.call = .putJobSuccessResult ev.codePipelineJob.id ∨ x.call.isLog = true := by
  rcases handler_trace_cases w ev s with ⟨e, -, htr, -⟩ | ⟨-, D, tail, htr, hD, hcase⟩
  · rw [htr] at hx
    simp only [List.mem_singleton] at hx
    subst hx
    exact Or.inl rfl
  · rw [htr] at hx
    simp only [List.mem_cons, List.mem_append] at hx
    rcases hx with rfl | hx | hx
    · exact Or.inl rfl
    · exact Or.inl (hD x hx)
    · rcases hcase with ⟨e2, rfl, -⟩ | ⟨-, hend⟩
      · rcases failTail_mem _ _ _ hx with rfl | h
        · exact Or.inr (Or.inr (Or.inr (Or.inl rfl)))
        · exact Or.inr (Or.inr (Or.inr (Or.inr (Or.inr h))))
      · exact Or.inr (hend.mem x hx)

theorem signals_append (a b : List Rec) : signals (a ++ b) = signals a ++ signals b := by
  simp [signals]

theorem signals_cons_not (x : Rec) (a : List Rec) (h : x.call.isSignal = false) :
    signals (x :: a) = signals a := by
  simp [signals, List.filter_cons, h]

theorem signals_none (a : List Rec) (h : ∀ x ∈ a, x.call.isSignal = false) : signals a = [] := by
  simp only [signals, List.filter_eq_nil_iff]
  intro x hx
  simp [h x hx]

theorem signals_failTail (jobId : String) (e2 : Option Err) :
    signals (failTail jobId e2) = [⟨.putJobFailureResult jobId, e2⟩] := by
  cases e2 <;> simp [signals, failTail, List.filter_cons, Call.isSignal]

theorem signals_successHead (body : Bytes) (jobId : String) (e : Option Err) :
    signals (successHead body jobId e) = [⟨.putJobSuccessResult jobId, e⟩] := by
  simp [signals, successHead, validateHead, List.filter_cons, Call.isSignal]

/-- The closes pending when the loop of `unzip` ends are closes. -/
theorem unzipLoop_defers (w : World σ) (target : String) (files : List ZipFile) :
    ∀ (defers : List Call) (s : σ), (∀ c ∈ defers, c.isClose = true) →
      ∀ v, (unzipLoop w target files defers s).out = .ret v → ∀ c ∈ v.2, c.isClose = true := by
  induction files with
  | nil =>
    intro defers s hd v hv
    rw [unzipLoop_nil] at hv
    cases hv
    exact hd
  | cons file rest ih =>
    intro defers s hd v hv
    cases h : file.mode.isDir with
    | true =>
      rw [unzipLoop_dir w target file rest defers s h] at hv
      exact ih defers _ hd v hv
    | false =>
      cases h1 : (w (.zipOpen file) s).1.err with
      | some e =>
        rw [unzipLoop_openErr w target file rest defers s h e h1] at hv
        cases hv
        exact hd
      | none =>
        cases h2 : (w (.openFile (filepathJoin target file.name) file.mode)
            (w (.zipOpen file) s).2).1.err with
        | some e =>
          rw [unzipLoop_createErr w target file rest defers s h e h1 h2] at hv
          cases hv
          simpa [Call.isClose] using hd
        | none =>
          cases h3 : (w (.ioCopy (filepathJoin target file.name) file)
              (w (.openFile (filepathJoin target file.name) file.mode)
                (w (.zipOpen file) s).2).2).1.err with
          | some e =>
            rw [unzipLoop_copyErr w target file rest defers s h e h1 h2 h3] at hv
            cases hv
            simpa [Call.isClose] using hd
          | none =>
            rw [unzipLoop_file w target file rest defers s h h1 h2 h3] at hv
            exact ih _ _ (by simpa [Call.isClose] using hd) v hv

/-- When the archive opens and the target directory is made, `unzip` returns
what its loop returns, after the deferred closes. -/
theorem unzip_run (w : World σ) (archive target : String) (s : σ)
    (h1 : (w (.zipOpenReader archive) s).1.err = none)
    (h2 : (w (.mkdirAll target ⟨false, 0o755⟩) (w (.zipOpenReader archive) s).2).1.err = none)
    (v : Option Err × List Call)
    (hv : (unzipLoop w target (w (.zipOpenReader archive) s).1.files []
      (w (.mkdirAll target ⟨false, 0o755⟩) (w (.zipOpenReader archive) s).2).2).out = .ret v) :
    (unzip w archive target s).out = .ret v.1 ∧
      (unzip w archive target s).state = (runDefers w v.2
        (unzipLoop w target (w (.zipOpenReader archive) s).1.files []
          (w (.mkdirAll target ⟨false, 0o755⟩) (w (.zipOpenReader archive) s).2).2).state).state ∧
      (unzip w archive target s).trace =
        ⟨.zipOpenReader archive, none⟩ :: ⟨.mkdirAll target ⟨false, 0o755⟩, none⟩ ::
          ((unzipLoop w target (w (.zipOpenReader archive) s).1.files []
            (w (.mkdirAll target ⟨false, 0o755⟩) (w (.zipOpenReader archive) s).2).2).trace ++
          (runDefers w v.2
            (unzipLoop w target (w (.zipOpenReader archive) s).1.files []
              (w (.mkdirAll target ⟨false, 0o755⟩)
                (w (.zipOpenReader archive) s).2).2).state).trace) := by
  obtain ⟨⟨v1, hv1, hvd⟩, -⟩ := unzipLoop_spec w target (w (.zipOpenReader archive) s).1.files []
    (w (.mkdirAll target ⟨false, 0o755⟩) (w (.zipOpenReader archive) s).2).2 (by simp)
  rw [hv] at hv1
  cases hv1
  obtain ⟨hro, -⟩ := runDefers_spec w v.2 hvd
    (unzipLoop w target (w (.zipOpenReader archive) s).1.files []
      (w (.mkdirAll target ⟨false, 0o755⟩) (w (.zipOpenReader archive) s).2).2).state
  simp [unzip, bind_run, Go.bind, call, h1, h2, pure_run, hv, hro]

/-- When the archive cannot be opened `unzip` returns the error. -/
theorem unzip_openErr (w : World σ) (archive target : String) (s : σ) (e : Err)
    (h1 : (w (.zipOpenReader archive) s).1.err = some e) :
    (unzip w archive target s).out = .ret (some e) := by
  simp [unzip, bind_run, Go.bind, call, h1, pure_run]

/-- When the target directory cannot be made `unzip` returns the error. -/
theorem unzip_mkdirErr (w : World σ) (archive target : String) (s : σ) (e : Err)
    (h1 : (w (.zipOpenReader archive) s).1.err = none)
    (h2 : (w (.mkdirAll target ⟨false, 0o755⟩) (w (.zipOpenReader archive) s).2).1.err = some e) :
    (unzip w archive target s).out = .ret (some e) := by
  simp [unzip, bind_run, Go.bind, call, h1, h2, pure_run]

/-- The deferred closes are the only calls of `runDefers`. -/
theorem runDefers_trace (w : World σ) (cs : List Call) :
    ∀ s : σ, ∀ x ∈ (runDefers w cs s).trace, x.call ∈ cs := by
  induction cs with
  | nil => intro s x hx; simp [runDefers, pure_run] at hx
  | cons c cs ih =>
    intro s x hx
    simp only [runDefers, bind_run, Go.bind, call, List.mem_append, List.mem_singleton] at hx
    rcases hx with rfl | hx
    · simp
    · exact List.mem_cons_of_mem _ (ih _ x hx)

/-- Every path the loop of `unzip` creates or writes to is the target joined
with the name of an entry. -/
theorem unzipLoop_writes (w : World σ) (target : String) (files : List ZipFile) :
    ∀ (defers : List Call) (s : σ), ∀ x ∈ (unzipLoop w target files defers s).trace,
      ∀ p, x.call.writes = some p → ∃ f ∈ files, p = filepathJoin target f.name := by
  induction files with
  | nil => intro defers s x hx; simp [unzipLoop_nil] at hx
  | cons file rest ih =>
    intro defers s x hx p hp
    have hrest : ∀ d t, x ∈ (unzipLoop w target rest d t).trace →
        ∃ f ∈ file :: rest, p = filepathJoin target f.name := by
      intro d t h
      obtain ⟨f, hf, hpf⟩ := ih d t x h p hp
      exact ⟨f, List.mem_cons_of_mem _ hf, hpf⟩
    have hhere : ∀ e, (x = ⟨.mkdirAll (filepathJoin target file.name) file.mode, e⟩ ∨
        x = ⟨.zipOpen file, e⟩ ∨ x = ⟨.openFile (filepathJoin target file.name) file.mode, e⟩ ∨
        x = ⟨.ioCopy (filepathJoin target file.name) file, e⟩) →
        ∃ f ∈ file :: rest, p = filepathJoin target f.name := by
      rintro e (rfl | rfl | rfl | rfl)
      · simp only [Call.writes, Option.some.injEq] at hp
        exact ⟨file, by simp, hp.symm⟩
      · simp [Call.writes] at hp
      · simp only [Call.writes, Option.some.injEq] at hp
        exact ⟨file, by simp, hp.symm⟩
      · simp only [Call.writes, Option.some.injEq] at hp
        exact ⟨file, by simp, hp.symm⟩
    cases h : file.mode.isDir with
    | true =>
      rw [unzipLoop_dir w target file rest defers s h] at hx
      simp only [List.mem_cons] at hx
      rcases hx with hx | hx
      · exact hhere _ (Or.inl hx)
      · exact hrest _ _ hx
    | false =>
      cases h1 : (w (.zipOpen file) s).1.err with
      | some e =>
        rw [unzipLoop_openErr w target file rest defers s h e h1] at hx
        simp only [List.mem_singleton] at hx
        exact hhere _ (Or.inr (Or.inl hx))
      | none =>
        cases h2 : (w (.openFile (filepathJoin target file.name) file.mode)
            (w (.zipOpen file) s).2).1.err with
        | some e =>
          rw [unzipLoop_createErr w target file rest defers s h e h1 h2] at hx
          simp only [List.mem_cons, List.mem_singleton, List.not_mem_nil, or_false] at hx
          rcases hx with hx | hx
          · exact hhere _ (Or.inr (Or.inl hx))
          · exact hhere _ (Or.inr (Or.inr (Or.inl hx)))
        | none =>
          cases h3 : (w (.ioCopy (filepathJoin target file.name) file)
              (w (.openFile (filepathJoin target file.name) file.mode)
                (w (.zipOpen file) s).2).2).1.err with
          | some e =>
            rw [unzipLoop_copyErr w target file rest defers s h e h1 h2 h3] at hx
            simp only [List.mem_cons, List.mem_singleton, List.not_mem_nil, or_false] at hx
            rcases hx with hx | hx | hx
            · exact hhere _ (Or.inr (Or.inl hx))
            · exact hhere _ (Or.inr (Or.inr (Or.inl hx)))
            · exact hhere _ (Or.inr (Or.inr (Or.inr hx)))
          | none =>
            rw [unzipLoop_file w target file rest defers s h h1 h2 h3] at hx
            simp only [List.mem_cons] at hx
            rcases hx with hx | hx | hx | hx
            · exact hhere _ (Or.inr (Or.inl hx))
            · exact hhere _ (Or.inr (Or.inr (Or.inl hx)))
            · exact hhere _ (Or.inr (Or.inr (Or.inr hx)))
            · exact hrest _ _ hx

/-- Every path `unzip` creates or writes to is the target, or the target joined
with the name of an entry of the archive. -/
theorem unzip_writes (w : World σ) (archive target : String) (s : σ) (x : Rec)
    (hx : x ∈ (unzip w archive target s).trace) (p : String) (hp : x.call.writes = some p) :
    p = target ∨ ∃ f ∈ (w (.zipOpenReader archive) s).1.files, p = filepathJoin target f.name := by
  cases h1 : (w (.zipOpenReader archive) s).1.err with
  | some e =>
    simp only [unzip, bind_run, Go.bind, call, h1, pure_run, List.append_nil,
      List.mem_singleton] at hx
    subst hx
    simp [Call.writes] at hp
  | none =>
    cases h2 : (w (.mkdirAll target ⟨false, 0o755⟩) (w (.zipOpenReader archive) s).2).1.err with
    | some e =>
      simp only [unzip, bind_run, Go.bind, call, h1, h2, pure_run, List.append_nil,
        List.mem_append, List.mem_singleton] at hx
      rcases hx with rfl | rfl
      · simp [Call.writes] at hp
      · simp only [Call.writes, Option.some.injEq] at hp
        exact Or.inl hp.symm
    | none =>
      obtain ⟨⟨v, hv, -⟩, -⟩ := unzipLoop_spec w target (w (.zipOpenReader archive) s).1.files []
        (w (.mkdirAll target ⟨false, 0o755⟩) (w (.zipOpenReader archive) s).2).2 (by simp)
      have hcl := unzipLoop_defers w target (w (.zipOpenReader archive) s).1.files []
        (w (.mkdirAll target ⟨false, 0o755⟩) (w (.zipOpenReader archive) s).2).2 (by simp) v hv
      obtain ⟨-, -, htr⟩ := unzip_run w archive target s h1 h2 v hv
      rw [htr] at hx
      simp only [List.mem_cons, List.mem_append] at hx
      rcases hx with rfl | rfl | hx | hx
      · simp [Call.writes] at hp
      · simp only [Call.writes, Option.some.injEq] at hp
        exact Or.inl hp.symm
      · exact Or.inr (unzipLoop_writes w target _ _ _ x hx p hp)
      · have := hcl _ (runDefers_trace w v.2 _ x hx)
        cases hc : x.call <;> simp_all [Call.isClose, Call.writes]

/-- When the loop of `unzip` returns nil, the only calls of it that failed are
directory creations for directory entries, whose result it discards. -/
theorem unzipLoop_nil_failures (w : World σ) (target : String) (files : List ZipFile) :
    ∀ (defers : List Call) (s : σ) (v : List Call),
      (unzipLoop w target files defers s).out = .ret (none, v) →
      ∀ x ∈ (unzipLoop w target files defers s).trace, x.err ≠ none →
        ∃ p m, x.call = .mkdirAll p m ∧ m.isDir = true := by
  induction files with
  | nil => intro defers s v _ x hx; simp [unzipLoop_nil] at hx
  | cons file rest ih =>
    intro defers s v hv x hx herr
    cases h : file.mode.isDir with
    | true =>
      rw [unzipLoop_dir w target file rest defers s h] at hv hx
      simp only [List.mem_cons] at hx
      rcases hx with rfl | hx
      · exact ⟨_, _, rfl, h⟩
      · exact ih _ _ v hv x hx herr
    | false =>
      cases h1 : (w (.zipOpen file) s).1.err with
      | some e =>
        rw [unzipLoop_openErr w target file rest defers s h e h1] at hv
        cases hv
      | none =>
        cases h2 : (w (.openFile (filepathJoin target file.name) file.mode)
            (w (.zipOpen file) s).2).1.err with
        | some e =>
          rw [unzipLoop_createErr w target file rest defers s h e h1 h2] at hv
          cases hv
        | none =>
          cases h3 : (w (.ioCopy (filepathJoin target file.name) file)
              (w (.openFile (filepathJoin target file.name) file.mode)
                (w (.zipOpen file) s).2).2).1.err with
          | some e =>
            rw [unzipLoop_copyErr w target file rest defers s h e h1 h2 h3] at hv
            cases hv
          | none =>
            rw [unzipLoop_file w target file rest defers s h h1 h2 h3] at hv hx
            simp only [List.mem_cons] at hx
            rcases hx with rfl | rfl | rfl | hx
            · exact absurd rfl herr
            · exact absurd rfl herr
            · exact absurd rfl herr
            · exact ih _ _ v hv x hx herr

/-- When `unzip` returns nil, the only extraction operations that failed are
directory creations for directory entries: the failure of any other operation
makes `unzip` return its error. -/
theorem unzip_nil_failures (w : World σ) (archive target : String) (s : σ)
    (hret : (unzip w archive target s).out = .ret none) (x : Rec)
    (hx : x ∈ (unzip w archive target s).trace) (hex : x.call.isExtraction = true)
    (herr : x.err ≠ none) : ∃ p m, x.call = .mkdirAll p m ∧ m.isDir = true := by
  cases h1 : (w (.zipOpenReader archive) s).1.err with
  | some e =>
    rw [unzip_openErr w archive target s e h1] at hret
    cases hret
  | none =>
    cases h2 : (w (.mkdirAll target ⟨false, 0o755⟩) (w (.zipOpenReader archive) s).2).1.err with
    | some e =>
      rw [unzip_mkdirErr w archive target s e h1 h2] at hret
      cases hret
    | none =>
      obtain ⟨⟨v, hv, -⟩, -⟩ := unzipLoop_spec w target (w (.zipOpenReader archive) s).1.files []
        (w (.mkdirAll target ⟨false, 0o755⟩) (w (.zipOpenReader archive) s).2).2 (by simp)
      have hcl := unzipLoop_defers w target (w (.zipOpenReader archive) s).1.files []
        (w (.mkdirAll target ⟨false, 0o755⟩) (w (.zipOpenReader archive) s).2).2 (by simp) v hv
      obtain ⟨ho, -, htr⟩ := unzip_run w archive target s h1 h2 v hv
      rw [ho] at hret
      rw [htr] at hx
      simp only [List.mem_cons, List.mem_append] at hx
      rcases hx with rfl | rfl | hx | hx
      · exact absurd rfl herr
      · exact absurd rfl herr
      · cases v with
        | mk a b =>
          simp only [Outcome.ret.injEq] at hret
          subst hret
          exact unzipLoop_nil_failures w target _ _ _ b hv x hx herr
      · have := hcl _ (runDefers_trace w v.2 _ x hx)
        cases hc : x.call <;> simp_all [Call.isClose, Call.isExtraction]

end Generic

/-! ## The reference environment -/

section Posix

variable (env : Env)

theorem lookup_set_ne (t : Tree) (k q : List String) (n : Node) (h : q ≠ k) :
    lookup (t.set k n) q = lookup t q := by
  simp [lookup, Tree.set, h]

theorem lookup_set_eq (t : Tree) (k : List String) (n : Node) (hk : k ≠ []) :
    lookup (t.set k n) k = some n := by
  simp [lookup, Tree.set, hk]

theorem lookup_file_ne_nil (t : Tree) (k : List String) (m : Nat) (d : Bytes)
    (h : lookup t k = some (.file m d)) : k ≠ [] := by
  rintro rfl
  simp [lookup] at h

/-- Making directories leaves every existing node as it is. -/
theorem mkdirAllRev_frame (perm : Nat) (rev : List String) :
    ∀ (t : Tree) (q : List String), lookup t q ≠ none →
      lookup (mkdirAllRev env perm rev t).2 q = lookup t q := by
  induction rev with
  | nil => intro t q _; rfl
  | cons e parent ih =>
    intro t q hq
    cases h : lookup t (e :: parent).reverse with
    | some n =>
      cases n <;> simp only [mkdirAllRev, h]
    | none =>
      have ih1 := ih t q hq
      rcases hrec : mkdirAllRev env perm parent t with ⟨_ | err, t1⟩
      · rw [hrec] at ih1
        cases hp : lookup t1 parent.reverse with
        | none =>
          simp only [mkdirAllRev, h, hrec, hp]
          exact ih1
        | some n =>
          cases n with
          | file m d =>
            simp only [mkdirAllRev, h, hrec, hp]
            exact ih1
          | dir m =>
            have hne : q ≠ (e :: parent).reverse := by
              rintro rfl
              exact hq h
            simp only [mkdirAllRev, h, hrec, hp]
            rw [lookup_set_ne _ _ _ _ hne]
            exact ih1
      · rw [hrec] at ih1
        simp only [mkdirAllRev, h, hrec]
        exact ih1

/-- The call `os.MkdirAll` leaves every existing node as it is. -/
theorem posix_mkdirAll_frame (p : String) (perm : FileMode) (t : Tree) (q : List String)
    (hq : lookup t q ≠ none) :
    lookup (posix env (.mkdirAll p perm) t).2 q = lookup t q := by
  simp only [posix]
  split
  · rfl
  · exact mkdirAllRev_frame env perm.perm _ t q hq

/-- Opening a file for writing changes nothing but the node at its path. -/
theorem openWrite_frame (t : Tree) (p : String) (perm : Nat) (q : List String)
    (hq : q ≠ resolve env p) : lookup (openWrite env t p perm).2 q = lookup t q := by
  unfold openWrite
  split
  · rfl
  · split
    · exact lookup_set_ne _ _ _ _ hq
    · rfl
    · split
      · exact lookup_set_ne _ _ _ _ hq
      · rfl
      · rfl

/-- Opening an existing file for writing truncates it and keeps its mode. -/
theorem openWrite_existing (t : Tree) (p : String) (perm m : Nat) (d : Bytes)
    (h : lookup t (resolve env p) = some (.file m d))
    (hok : (openWrite env t p perm).1 = none) :
    lookup (openWrite env t p perm).2 (resolve env p) = some (.file m []) := by
  have hk := lookup_file_ne_nil _ _ _ _ h
  unfold openWrite at hok ⊢
  split
  · rename_i hp
    simp [hp] at hok
  · simp only [h]
    exact lookup_set_eq _ _ _ hk

/-- Writing the content changes nothing but the node at the path. -/
theorem writeAll_frame (t : Tree) (p : String) (data : Bytes) (q : List String)
    (hq : q ≠ resolve env p) : lookup (writeAll env t p data).2 q = lookup t q := by
  unfold writeAll
  split
  · exact lookup_set_ne _ _ _ _ hq
  · rfl

/-- Writing the content of an open file replaces the content and keeps the
mode. -/
theorem writeAll_existing (t : Tree) (p : String) (data : Bytes) (m : Nat) (d : Bytes)
    (h : lookup t (resolve env p) = some (.file m d)) :
    (writeAll env t p data).1 = none ∧
      lookup (writeAll env t p data).2 (resolve env p) = some (.file m data) := by
  have hk := lookup_file_ne_nil _ _ _ _ h
  unfold writeAll
  simp only [h]
  exact ⟨trivial, lookup_set_eq _ _ _ hk⟩

/-- A regular file stays a regular file of the same mode when a file is opened
for writing. -/
theorem openWrite_keeps (t : Tree) (p : String) (perm : Nat) (q : List String) (m : Nat)
    (d : Bytes) (h : lookup t q = some (.file m d)) :
    ∃ d1, lookup (openWrite env t p perm).2 q = some (.file m d1) := by
  by_cases hq : q = resolve env p
  · subst hq
    have hk := lookup_file_ne_nil _ _ _ _ h
    unfold openWrite
    split
    · exact ⟨d, h⟩
    · simp only [h]
      exact ⟨[], lookup_set_eq _ _ _ hk⟩
  · exact ⟨d, by rw [openWrite_frame env t p perm q hq, h]⟩

/-- A regular file stays a regular file of the same mode when content is
written. -/
theorem writeAll_keeps (t : Tree) (p : String) (data : Bytes) (q : List String) (m : Nat)
    (d : Bytes) (h : lookup t q = some (.file m d)) :
    ∃ d1, lookup (writeAll env t p data).2 q = some (.file m d1) := by
  by_cases hq : q = resolve env p
  · subst hq
    exact ⟨data, (writeAll_existing env t p data m d h).2⟩
  · exact ⟨d, by rw [writeAll_frame env t p data q hq, h]⟩

/-- A property of file trees that the directory creations and the file writes
of the entries preserve holds after the loop of `unzip`. -/
theorem unzipLoop_invariant (target : String) (P : Tree → Prop) (files : List ZipFile)
    (hmk : ∀ t p perm, P t → P (posix env (.mkdirAll p perm) t).2)
    (hop : ∀ t g, g ∈ files → g.mode.isDir = false → P t →
      P (openWrite env t (filepathJoin target g.name) g.mode.perm).2)
    (hwr : ∀ t g, g ∈ files → g.mode.isDir = false → P t →
      P (writeAll env t (filepathJoin target g.name) g.data).2) :
    ∀ (defers : List Call) (t : Tree), P t →
      P (unzipLoop (posix env) target files defers t).state := by
  induction files with
  | nil => intro defers t ht; exact ht
  | cons file rest ih =>
    have ih1 := ih (fun t g hg => hop t g (by simp [hg])) (fun t g hg => hwr t g (by simp [hg]))
    intro defers t ht
    cases h : file.mode.isDir with
    | true =>
      rw [unzipLoop_dir (posix env) target file rest defers t h]
      exact ih1 defers _ (hmk t _ _ ht)
    | false =>
      have ho := hop t file (by simp) h ht
      have hw := hwr _ file (by simp) h ho
      cases h1 : (posix env (.zipOpen file) t).1.err with
      | some e => simp [posix] at h1
      | none =>
        cases h2 : (posix env (.openFile (filepathJoin target file.name) file.mode)
            (posix env (.zipOpen file) t).2).1.err with
        | some e =>
          rw [unzipLoop_createErr (posix env) target file rest defers t h e h1 h2]
          exact ho
        | none =>
          cases h3 : (posix env (.ioCopy (filepathJoin target file.name) file)
              (posix env (.openFile (filepathJoin target file.name) file.mode)
                (posix env (.zipOpen file) t).2).2).1.err with
          | some e =>
            rw [unzipLoop_copyErr (posix env) target file rest defers t h e h1 h2 h3]
            exact hw
          | none =>
            rw [unzipLoop_file (posix env) target file rest defers t h h1 h2 h3]
            exact ih1 _ _ hw

/-- The deferred closes leave the file tree as it is. -/
theorem runDefers_posix (cs : List Call) (hcs : ∀ c ∈ cs, c.isClose = true) :
    ∀ t : Tree, (runDefers (posix env) cs t).state = t := by
  induction cs with
  | nil => intro t; rfl
  | cons c cs ih =>
    intro t
    have hc := hcs c (by simp)
    have ih1 := ih (fun c hc => hcs c (by simp [hc]))
    simp only [runDefers, bind_run, Go.bind, call]
    cases c <;> simp [Call.isClose] at hc <;> exact ih1 t

/-- Opening the archive leaves the file tree as it is. -/
theorem posix_zipOpenReader_state (p : String) (t : Tree) :
    (posix env (.zipOpenReader p) t).2 = t := by
  simp only [posix]
  split
  · split <;> rfl
  · rfl
  · rfl

/-- When `unzip` returns nil, the archive was opened, the target directory
made, the loop returned nil, and the final tree is the tree after the loop. -/
theorem unzip_posix_ok (archive target : String) (t : Tree)
    (hret : (unzip (posix env) archive target t).out = .ret none) :
    (posix env (.zipOpenReader archive) t).1.err = none ∧
      (posix env (.mkdirAll target ⟨false, 0o755⟩) t).1.err = none ∧
      (∃ v, (unzipLoop (posix env) target (posix env (.zipOpenReader archive) t).1.files []
        (posix env (.mkdirAll target ⟨false, 0o755⟩) t).2).out = .ret (none, v)) ∧
      (unzip (posix env) archive target t).state =
        (unzipLoop (posix env) target (posix env (.zipOpenReader archive) t).1.files []
          (posix env (.mkdirAll target ⟨false, 0o755⟩) t).2).state := by
  have hst := posix_zipOpenReader_state env archive t
  cases h1 : (posix env (.zipOpenReader archive) t).1.err with
  | some e =>
    rw [unzip_openErr (posix env) archive target t e h1] at hret
    cases hret
  | none =>
    cases h2 : (posix env (.mkdirAll target ⟨false, 0o755⟩)
        (posix env (.zipOpenReader archive) t).2).1.err with
    | some e =>
      rw [unzip_mkdirErr (posix env) archive target t e h1 h2] at hret
      cases hret
    | none =>
      obtain ⟨⟨v, hv, -⟩, -⟩ := unzipLoop_spec (posix env) target
        (posix env (.zipOpenReader archive) t).1.files []
        (posix env (.mkdirAll target ⟨false, 0o755⟩) (posix env (.zipOpenReader archive) t).2).2
        (by simp)
      have hcl := unzipLoop_defers (posix env) target
        (posix env (.zipOpenReader archive) t).1.files []
        (posix env (.mkdirAll target ⟨false, 0o755⟩) (posix env (.zipOpenReader archive) t).2).2
        (by simp) v hv
      obtain ⟨ho, hs, -⟩ := unzip_run (posix env) archive target t h1 h2 v hv
      rw [ho] at hret
      rw [hs, runDefers_posix env v.2 hcl]
      rw [hst] at h2 hv ⊢
      refine ⟨rfl, h2, ⟨v.2, ?_⟩, rfl⟩
      rw [hv]
      cases v with
      | mk a b =>
        simp only [Outcome.ret.injEq] at hret
        rw [hret]

/-- The loop of `unzip`, when it returns nil, leaves at the path of a file
entry that found a regular file there the content of the entry and the mode of
the file found, unless a later file entry has the same path. -/
theorem unzipLoop_overwrites (target : String) (f : ZipFile) (post : List ZipFile) (m0 : Nat)
    (hf : f.mode.isDir = false)
    (hlast : ∀ g ∈ post, g.mode.isDir = false →
      resolve env (filepathJoin target g.name) ≠ resolve env (filepathJoin target f.name)) :
    ∀ (pre : List ZipFile) (defers : List Call) (t : Tree) (d : Bytes),
      lookup t (resolve env (filepathJoin target f.name)) = some (.file m0 d) →
      (∃ v, (unzipLoop (posix env) target (pre ++ f :: post) defers t).out = .ret (none, v)) →
      lookup (unzipLoop (posix env) target (pre ++ f :: post) defers t).state
        (resolve env (filepathJoin target f.name)) = some (.file m0 f.data) := by
  intro pre
  induction pre with
  | nil =>
    intro defers t d ht hv
    obtain ⟨v, hv⟩ := hv
    simp only [List.nil_append] at hv ⊢
    have h1 : (posix env (.zipOpen f) t).1.err = none := rfl
    cases h2 : (posix env (.openFile (filepathJoin target f.name) f.mode)
        (posix env (.zipOpen f) t).2).1.err with
    | some e =>
      rw [unzipLoop_createErr (posix env) target f post defers t hf e h1 h2] at hv
      cases hv
    | none =>
      cases h3 : (posix env (.ioCopy (filepathJoin target f.name) f)
          (posix env (.openFile (filepathJoin target f.name) f.mode)
            (posix env (.zipOpen f) t).2).2).1.err with
      | some e =>
        rw [unzipLoop_copyErr (posix env) target f post defers t hf e h1 h2 h3] at hv
        cases hv
      | none =>
        rw [unzipLoop_file (posix env) target f post defers t hf h1 h2 h3]
        have ho := openWrite_existing env t (filepathJoin target f.name) f.mode.perm m0 d ht h2
        have hw := (writeAll_existing env _ (filepathJoin target f.name) f.data m0 [] ho).2
        refine unzipLoop_invariant env target
          (fun t => lookup t (resolve env (filepathJoin target f.name)) = some (.file m0 f.data))
          post ?_ ?_ ?_ _ _ hw
        · intro t p perm h
          rw [posix_mkdirAll_frame env p perm t _ (by rw [h]; simp), h]
        · intro t g hg hgd h
          rw [openWrite_frame env t _ _ _ (Ne.symm (hlast g hg hgd)), h]
        · intro t g hg hgd h
          rw [writeAll_frame env t _ _ _ (Ne.symm (hlast g hg hgd)), h]
  | cons g pre ih =>
    intro defers t d ht hv
    obtain ⟨v, hv⟩ := hv
    simp only [List.cons_append] at hv ⊢
    cases hg : g.mode.isDir with
    | true =>
      rw [unzipLoop_dir (posix env) target g (pre ++ f :: post) defers t hg] at hv ⊢
      refine ih defers _ d ?_ ⟨v, hv⟩
      rw [posix_mkdirAll_frame env _ _ t _ (by rw [ht]; simp), ht]
    | false =>
      have h1 : (posix env (.zipOpen g) t).1.err = none := rfl
      cases h2 : (posix env (.openFile (filepathJoin target g.name) g.mode)
          (posix env (.zipOpen g) t).2).1.err with
      | some e =>
        rw [unzipLoop_createErr (posix env) target g (pre ++ f :: post) defers t hg e h1 h2] at hv
        cases hv
      | none =>
        cases h3 : (posix env (.ioCopy (filepathJoin target g.name) g)
            (posix env (.openFile (filepathJoin target g.name) g.mode)
              (posix env (.zipOpen g) t).2).2).1.err with
        | some e =>
          rw [unzipLoop_copyErr (posix env) target g (pre ++ f :: post) defers t hg e h1 h2 h3]
            at hv
          cases hv
        | none =>
          rw [unzipLoop_file (posix env) target g (pre ++ f :: post) defers t hg h1 h2 h3]
            at hv ⊢
          obtain ⟨d1, ho⟩ := openWrite_keeps env t (filepathJoin target g.name) g.mode.perm _ m0 d ht
          obtain ⟨d2, hw⟩ := writeAll_keeps env _ (filepathJoin target g.name) g.data _ m0 d1 ho
          exact ih _ _ d2 hw ⟨v, hv⟩

/-- A proper prefix of a list is a prefix of the list without its last
element. -/
theorem prefix_dropLast_of_ne {α : Type} (a b : List α) (h : a <+: b) (hne : a ≠ b) :
    a <+: b.dropLast := by
  rcases List.eq_nil_or_concat b with rfl | ⟨l, e, rfl⟩
  · exact absurd (List.prefix_nil.1 h) hne
  · rw [List.concat_eq_append] at h hne ⊢
    rw [List.dropLast_concat]
    rcases List.prefix_concat_iff.1 h with h1 | h1
    · exact absurd h1 hne
    · exact h1

/-- Below a directory `t0`, when nothing but directories is in the way and the
directories there have directories above them, `os.MkdirAll` succeeds: every
path from `t0` down to the one asked for is then a directory, and the nodes
made are directories on that path. -/
theorem mkdirAllRev_makes (perm : Nat) (t0 : List String) (rev : List String) :
    ∀ tr : Tree, t0 <+: rev.reverse →
      (∃ m, lookup tr t0 = some (.dir m)) →
      (∀ q, t0 <+: q → q <+: rev.reverse → q ≠ t0 → tr q = none ∨ ∃ m, tr q = some (.dir m)) →
      (∀ q, t0 <+: q → q ≠ t0 → (∃ m, tr q = some (.dir m)) →
        ∀ q1, t0 <+: q1 → q1 <+: q → ∃ m, lookup tr q1 = some (.dir m)) →
      (mkdirAllRev env perm rev tr).1 = none ∧
        (∀ q, t0 <+: q → q <+: rev.reverse →
          ∃ m, lookup (mkdirAllRev env perm rev tr).2 q = some (.dir m)) ∧
        ∀ q n, (mkdirAllRev env perm rev tr).2 q = some n →
          tr q = some n ∨ (t0 <+: q ∧ q <+: rev.reverse ∧ q ≠ t0 ∧ ∃ m, n = .dir m) := by
  induction rev with
  | nil =>
    intro tr h0 hd _ _
    have ht0 : t0 = [] := by simpa using h0
    subst ht0
    refine ⟨rfl, ?_, fun q n h => Or.inl h⟩
    intro q _ hq
    have : q = [] := by simpa using hq
    subst this
    exact hd
  | cons e parent ih =>
    intro tr h0 hd hclear hwf
    have hkey : (e :: parent).reverse ≠ [] := by simp
    by_cases hk : t0 = (e :: parent).reverse
    · obtain ⟨m, hm⟩ := hd
      rw [hk] at hm
      simp only [mkdirAllRev, hm]
      refine ⟨trivial, ?_, fun q n h => Or.inl h⟩
      intro q hq1 hq2
      have : q = (e :: parent).reverse := by
        rw [hk] at hq1
        exact List.IsPrefix.eq_of_length hq2
          (Nat.le_antisymm hq2.length_le hq1.length_le)
      rw [this]
      exact ⟨m, hm⟩
    · have h0p : t0 <+: parent.reverse := by
        have := prefix_dropLast_of_ne t0 _ h0 hk
        simpa using this
      have hlk : lookup tr (e :: parent).reverse = tr (e :: parent).reverse := by
        simp [lookup]
      rcases hclear _ h0 (List.prefix_refl _) (Ne.symm hk) with hn | ⟨m, hm⟩
      · obtain ⟨ih1, ih2, ih3⟩ := ih tr h0p hd
          (fun q hq1 hq2 hq3 => hclear q hq1
            (hq2.trans (by simp [List.reverse_cons])) hq3) hwf
        rcases hrec : mkdirAllRev env perm parent tr with ⟨err, t1⟩
        rw [hrec] at ih1 ih2 ih3
        simp only at ih1 ih2 ih3
        subst ih1
        obtain ⟨mp, hmp⟩ := ih2 parent.reverse h0p (List.prefix_refl _)
        rw [← hlk] at hn
        simp only [mkdirAllRev, hn, hrec, hmp]
        refine ⟨trivial, ?_, ?_⟩
        · intro q hq1 hq2
          by_cases hqk : q = (e :: parent).reverse
          · subst hqk
            exact ⟨_, lookup_set_eq _ _ _ hkey⟩
          · rw [lookup_set_ne _ _ _ _ hqk]
            refine ih2 q hq1 ?_
            rw [List.reverse_cons] at hq2 hqk
            rcases List.prefix_concat_iff.1 hq2 with h | h
            · exact absurd h hqk
            · exact h
        · intro q n hq
          simp only [Tree.set] at hq
          split at hq
          · rename_i hqk
            subst hqk
            cases hq
            exact Or.inr ⟨h0, List.prefix_refl _, Ne.symm hk, _, rfl⟩
          · rcases ih3 q n hq with h | ⟨h1, h2, h3, h4⟩
            · exact Or.inl h
            · exact Or.inr ⟨h1, h2.trans (by simp [List.reverse_cons]), h3, h4⟩
      · have hm1 := hm
        rw [← hlk] at hm1
        simp only [mkdirAllRev, hm1]
        refine ⟨trivial, ?_, fun q n h => Or.inl h⟩
        intro q hq1 hq2
        exact hwf _ h0 (Ne.symm hk) ⟨m, hm⟩ q hq1 hq2

theorem cleanStep_nonempty (rooted : Bool) (acc : List String) (e : String)
    (h : ∀ x ∈ acc, x ≠ "") : ∀ x ∈ cleanStep rooted acc e, x ≠ "" := by
  unfold cleanStep
  split
  · exact h
  · split
    · cases acc with
      | nil =>
        cases rooted <;> simp
      | cons top rest =>
        simp only
        split
        · intro x hx
          simp only [List.mem_cons] at hx
          rcases hx with rfl | hx
          · simp
          · exact h x (by simpa using hx)
        · intro x hx
          exact h x (by simp [hx])
    · rename_i h1 _
      intro x hx
      simp only [List.mem_cons] at hx
      rcases hx with rfl | hx
      · intro hx
        exact h1 (Or.inl hx)
      · exact h x hx

theorem foldl_cleanStep_nonempty (rooted : Bool) (l : List String) :
    ∀ acc : List String, (∀ x ∈ acc, x ≠ "") → ∀ x ∈ l.foldl (cleanStep rooted) acc, x ≠ "" := by
  induction l with
  | nil => intro acc h; exact h
  | cons e l ih =>
    intro acc h
    exact ih _ (cleanStep_nonempty rooted acc e h)

theorem cleanElements_nonempty (p : String) : ∀ x ∈ cleanElements p, x ≠ "" := by
  intro x hx
  unfold cleanElements at hx
  rw [List.mem_reverse] at hx
  exact foldl_cleanStep_nonempty _ _ [] (by simp) x hx

theorem string_ne_empty_of_data (s : String) (h : s.data ≠ []) : s ≠ "" := by
  rintro rfl
  exact h rfl

theorem joinSlash_ne_empty (l : List String) (hl : l ≠ []) (h : ∀ x ∈ l, x ≠ "") :
    joinSlash l ≠ "" := by
  cases l with
  | nil => exact absurd rfl hl
  | cons e rest =>
    cases rest with
    | nil => exact h e (by simp)
    | cons f rest =>
      apply string_ne_empty_of_data
      simp [joinSlash, String.data_append]

/-- The path `filepath.Clean` returns is never empty. -/
theorem filepathClean_ne_empty (p : String) : filepathClean p ≠ "" := by
  unfold filepathClean
  split
  · decide
  · split
    · apply string_ne_empty_of_data
      simp [String.data_append]
    · split
      · decide
      · rename_i h
        exact joinSlash_ne_empty _ h (cleanElements_nonempty p)

/-- Joined to a non-empty target, an entry name gives a non-empty path. -/
theorem filepathJoin_ne_empty (a b : String) (ha : a ≠ "") : filepathJoin a b ≠ "" := by
  unfold filepathJoin
  rw [if_pos ha]
  exact filepathClean_ne_empty _

theorem lookup_raw (t : Tree) (q : List String) (hq : q ≠ []) : lookup t q = t q := by
  simp [lookup, hq]

theorem ne_nil_of_below (t0 q : List String) (h1 : t0 <+: q) (h2 : q ≠ t0) : q ≠ [] := by
  rintro rfl
  exact h2 (List.prefix_nil.1 h1).symm

/-- Extraction stays in order over a directory entry. -/
theorem Extracted.mkdir {target : String} {done : List ZipFile} {tr : Tree}
    (h : Extracted env target done tr) (x : ZipFile) (hT : target ≠ "")
    (hx : x.mode.isDir = true)
    (hin : resolve env target <+: entryKey env target x)
    (hlater : ∀ f ∈ done, f.mode.isDir = false →
      ¬ entryKey env target f <+: entryKey env target x) :
    Extracted env target (done ++ [x])
      (posix env (.mkdirAll (filepathJoin target x.name) x.mode) tr).2 := by
  have hp := filepathJoin_ne_empty target x.name hT
  have hst : (posix env (.mkdirAll (filepathJoin target x.name) x.mode) tr).2 =
      (mkdirAllRev env x.mode.perm (entryKey env target x).reverse tr).2 := by
    simp [posix, hp, entryKey]
  rw [hst]
  have hclear : ∀ q, resolve env target <+: q → q <+: (entryKey env target x).reverse.reverse →
      q ≠ resolve env target → tr q = none ∨ ∃ m, tr q = some (.dir m) := by
    intro q hq1 hq2 hq3
    rw [List.reverse_reverse] at hq2
    cases hn : tr q with
    | none => exact Or.inl rfl
    | some n =>
      have hl : lookup tr q = some n := by
        rw [lookup_raw tr q (ne_nil_of_below _ _ hq1 hq3), hn]
      rcases h.nodes q n hq1 hq3 hl with ⟨g, -, -, -, m, rfl⟩ | ⟨f, hf, hfd, rfl⟩
      · exact Or.inr ⟨m, rfl⟩
      · exact absurd hq2 (hlater f hf hfd)
  have hwf : ∀ q, resolve env target <+: q → q ≠ resolve env target →
      (∃ m, tr q = some (.dir m)) →
      ∀ q1, resolve env target <+: q1 → q1 <+: q → ∃ m, lookup tr q1 = some (.dir m) := by
    rintro q hq1 hq3 ⟨m, hm⟩ q1 hq11 hq12
    have hl : lookup tr q = some (.dir m) := by
      rw [lookup_raw tr q (ne_nil_of_below _ _ hq1 hq3), hm]
    rcases h.nodes q _ hq1 hq3 hl with ⟨g, hg, hgd, hqg, -⟩ | ⟨f, hf, hfd, rfl⟩
    · exact h.dirs g hg hgd q1 hq11 (hq12.trans hqg)
    · have := h.files f hf hfd
      rw [hl] at this
      cases this
  obtain ⟨-, hb, hc⟩ := mkdirAllRev_makes env x.mode.perm (resolve env target)
    (entryKey env target x).reverse tr (by rw [List.reverse_reverse]; exact hin) h.root hclear hwf
  have hfr := mkdirAllRev_frame env x.mode.perm (entryKey env target x).reverse tr
  constructor
  · obtain ⟨m, hm⟩ := h.root
    exact ⟨m, by rw [hfr _ (by rw [hm]; simp)]; exact hm⟩
  · intro q n hq1 hq3 hl
    rw [lookup_raw _ q (ne_nil_of_below _ _ hq1 hq3)] at hl
    rcases hc q n hl with h1 | ⟨-, h2, -, m, rfl⟩
    · have hl1 : lookup tr q = some n := by
        rw [lookup_raw tr q (ne_nil_of_below _ _ hq1 hq3), h1]
      rcases h.nodes q n hq1 hq3 hl1 with ⟨g, hg, r⟩ | ⟨f, hf, r⟩
      · exact Or.inl ⟨g, List.mem_append_left _ hg, r⟩
      · exact Or.inr ⟨f, List.mem_append_left _ hf, r⟩
    · rw [List.reverse_reverse] at h2
      exact Or.inl ⟨x, by simp, hx, h2, m, rfl⟩
  · intro g hg hgd q hq1 hq2
    rw [List.mem_append, List.mem_singleton] at hg
    rcases hg with hg | rfl
    · obtain ⟨m, hm⟩ := h.dirs g hg hgd q hq1 hq2
      exact ⟨m, by rw [hfr _ (by rw [hm]; simp)]; exact hm⟩
    · exact hb q hq1 (by rw [List.reverse_reverse]; exact hq2)
  · intro f hf hfd
    rw [List.mem_append, List.mem_singleton] at hf
    rcases hf with hf | rfl
    · have := h.files f hf hfd
      rw [hfr _ (by rw [this]; simp), this]
    · rw [hx] at hfd
      cases hfd

/-- Extraction stays in order over a file entry, and the file is created and
written without error. -/
theorem Extracted.write {target : String} {done : List ZipFile} {tr : Tree}
    (h : Extracted env target done tr) (x : ZipFile) (hT : target ≠ "")
    (hx : x.mode.isDir = false)
    (hin : resolve env target <+: entryKey env target x)
    (hne : entryKey env target x ≠ resolve env target)
    (hparent : (entryKey env target x).dropLast = resolve env target ∨
      ∃ g ∈ done, g.mode.isDir = true ∧
        (entryKey env target x).dropLast <+: entryKey env target g)
    (hfree : ∀ g ∈ done, ¬ entryKey env target x <+: entryKey env target g) :
    (openWrite env tr (filepathJoin target x.name) x.mode.perm).1 = none ∧
      (writeAll env (openWrite env tr (filepathJoin target x.name) x.mode.perm).2
        (filepathJoin target x.name) x.data).1 = none ∧
      Extracted env target (done ++ [x])
        (writeAll env (openWrite env tr (filepathJoin target x.name) x.mode.perm).2
          (filepathJoin target x.name) x.data).2 := by
  have hp := filepathJoin_ne_empty target x.name hT
  have hk0 := ne_nil_of_below _ _ hin hne
  have hnone : lookup tr (resolve env (filepathJoin target x.name)) = none := by
    cases hl : lookup tr (resolve env (filepathJoin target x.name)) with
    | none => rfl
    | some n =>
      rcases h.nodes _ n hin hne hl with ⟨g, hg, -, hqg, -⟩ | ⟨f, hf, -, hqf⟩
      · exact absurd hqg (hfree g hg)
      · exact absurd (hqf ▸ List.prefix_refl _) (hfree f hf)
  have hpar : ∃ m, lookup tr (resolve env (filepathJoin target x.name)).dropLast =
      some (.dir m) := by
    rcases hparent with hq | ⟨g, hg, hgd, hqg⟩
    · have hr := h.root
      rw [← hq] at hr
      exact hr
    · exact h.dirs g hg hgd _ (prefix_dropLast_of_ne _ _ hin (Ne.symm hne)) hqg
  obtain ⟨mp, hmp⟩ := hpar
  have hopen : openWrite env tr (filepathJoin target x.name) x.mode.perm =
      (none, tr.set (resolve env (filepathJoin target x.name))
        (.file (masked x.mode.perm env.umask) [])) := by
    unfold openWrite
    simp only [hp, if_false, hnone, hmp]
  have hl2 : lookup (openWrite env tr (filepathJoin target x.name) x.mode.perm).2
      (resolve env (filepathJoin target x.name)) =
      some (.file (masked x.mode.perm env.umask) []) := by
    rw [hopen]
    exact lookup_set_eq _ _ _ hk0
  obtain ⟨hw1, hw2⟩ := writeAll_existing env _ (filepathJoin target x.name) x.data _ _ hl2
  have hfr : ∀ q, q ≠ entryKey env target x →
      lookup (writeAll env (openWrite env tr (filepathJoin target x.name) x.mode.perm).2
        (filepathJoin target x.name) x.data).2 q = lookup tr q := by
    intro q hq
    rw [writeAll_frame env _ _ _ q hq, openWrite_frame env _ _ _ q hq]
  refine ⟨by rw [hopen], hw1, ?_⟩
  constructor
  · obtain ⟨m, hm⟩ := h.root
    exact ⟨m, by rw [hfr _ (Ne.symm hne)]; exact hm⟩
  · intro q n hq1 hq3 hl
    by_cases hq : q = entryKey env target x
    · exact Or.inr ⟨x, by simp, hx, hq⟩
    · rw [hfr q hq] at hl
      rcases h.nodes q n hq1 hq3 hl with ⟨g, hg, r⟩ | ⟨f, hf, r⟩
      · exact Or.inl ⟨g, List.mem_append_left _ hg, r⟩
      · exact Or.inr ⟨f, List.mem_append_left _ hf, r⟩
  · intro g hg hgd q hq1 hq2
    rw [List.mem_append, List.mem_singleton] at hg
    rcases hg with hg | rfl
    · have hq : q ≠ entryKey env target x := by
        rintro rfl
        exact hfree g hg hq2
      rw [hfr q hq]
      exact h.dirs g hg hgd q hq1 hq2
    · rw [hx] at hgd
      cases hgd
  · intro f hf hfd
    rw [List.mem_append, List.mem_singleton] at hf
    rcases hf with hf | rfl
    · have hq : entryKey env target f ≠ entryKey env target x := by
        intro hq
        exact hfree f hf (hq ▸ List.prefix_refl _)
      rw [hfr _ hq]
      exact h.files f hf hfd
    · exact hw2

/-- Over an archive with explicit directories the loop of `unzip` returns nil
and keeps the extraction in order. -/
theorem unzipLoop_staged (target : String) (hT : target ≠ "") :
    ∀ (rest done : List ZipFile) (defers : List Call) (tr : Tree),
      stagedFrom env target done rest = true →
      (∀ f ∈ done, f.mode.isDir = false →
        ∀ g ∈ rest, ¬ entryKey env target f <+: entryKey env target g) →
      Extracted env target done tr →
      (∃ v, (unzipLoop (posix env) target rest defers tr).out = .ret (none, v)) ∧
        Extracted env target (done ++ rest)
          (unzipLoop (posix env) target rest defers tr).state := by
  intro rest
  induction rest with
  | nil =>
    intro done defers tr _ _ h
    rw [unzipLoop_nil, List.append_nil]
    exact ⟨⟨defers, rfl⟩, h⟩
  | cons x rest ih =>
    intro done defers tr hs hlater h
    simp only [stagedFrom, Bool.and_eq_true, List.isPrefixOf_iff_prefix] at hs
    obtain ⟨⟨hin, hx⟩, hrest⟩ := hs
    have happ : done ++ x :: rest = (done ++ [x]) ++ rest := by simp
    cases hd : x.mode.isDir with
    | true =>
      rw [unzipLoop_dir (posix env) target x rest defers tr hd, happ]
      refine ih (done ++ [x]) defers _ hrest ?_ ?_
      · intro f hf hfd g hg
        rw [List.mem_append, List.mem_singleton] at hf
        rcases hf with hf | rfl
        · exact hlater f hf hfd g (List.mem_cons_of_mem _ hg)
        · rw [hd] at hfd
          cases hfd
      · exact h.mkdir env x hT hd hin
          (fun f hf hfd => hlater f hf hfd x (List.mem_cons_self _ _))
    | false =>
      simp only [hd, Bool.false_or, Bool.and_eq_true, bne_iff_ne, ne_eq, Bool.or_eq_true,
        beq_iff_eq, List.any_eq_true, List.all_eq_true, List.isPrefixOf_iff_prefix,
        Bool.not_eq_true', decide_eq_false_iff_not, List.mem_append] at hx
      obtain ⟨⟨hne, hparent⟩, hfree⟩ := hx
      have hparent1 : (entryKey env target x).dropLast = resolve env target ∨
          ∃ g ∈ done, g.mode.isDir = true ∧
            (entryKey env target x).dropLast <+: entryKey env target g := by
        rcases hparent with hp | ⟨g, hg, hgp⟩
        · exact Or.inl hp
        · exact Or.inr ⟨g, hg, hgp⟩
      have hfree1 : ∀ g, g ∈ done ∨ g ∈ rest →
          ¬ entryKey env target x <+: entryKey env target g := by
        intro g hg hpre
        have := hfree g hg
        rw [← List.isPrefixOf_iff_prefix] at hpre
        rw [hpre] at this
        cases this
      obtain ⟨ho, hw, hext⟩ := h.write env x hT hd hin hne hparent1
        (fun g hg => hfree1 g (Or.inl hg))
      rw [unzipLoop_file (posix env) target x rest defers tr hd rfl ho hw, happ]
      refine ih (done ++ [x]) _ _ hrest ?_ hext
      intro f hf hfd g hg
      rw [List.mem_append, List.mem_singleton] at hf
      rcases hf with hf | rfl
      · exact hlater f hf hfd g (List.mem_cons_of_mem _ hg)
      · exact hfree1 g (Or.inr hg)

/-- On an existing directory `os.MkdirAll` does nothing. -/
theorem mkdirAllRev_existing (perm : Nat) (rev : List String) (t : Tree) (m : Nat)
    (h : lookup t rev.reverse = some (.dir m)) : mkdirAllRev env perm rev t = (none, t) := by
  cases rev with
  | nil => rfl
  | cons e parent => simp only [mkdirAllRev, h]

/-- An empty directory is an extraction in order before its first entry. -/
theorem Extracted.start (target : String) (t : Tree) (m : Nat)
    (hdir : lookup t (resolve env target) = some (.dir m))
    (hempty : ∀ q, resolve env target <+: q → q ≠ resolve env target → t q = none) :
    Extracted env target [] t := by
  constructor
  · exact ⟨m, hdir⟩
  · intro q n hq1 hq3 hl
    rw [lookup_raw t q (ne_nil_of_below _ _ hq1 hq3), hempty q hq1 hq3] at hl
    cases hl
  · intro g hg
    cases hg
  · intro f hf
    cases hf

/-! ### Cleaning a path twice -/

theorem splitSlash_ne_nil (l : List Char) : splitSlash l ≠ [] := by
  cases l with
  | nil => simp [splitSlash]
  | cons c cs =>
    unfold splitSlash
    split
    · simp
    · split <;> simp

theorem splitSlash_append_slash (l1 l2 : List Char) :
    splitSlash (l1 ++ '/' :: l2) = splitSlash l1 ++ splitSlash l2 := by
  induction l1 with
  | nil => simp [splitSlash]
  | cons c cs ih =>
    by_cases hc : c = '/'
    · simp [splitSlash, hc, ih]
    · rcases hs : splitSlash cs with _ | ⟨h, t⟩
      · exact absurd hs (splitSlash_ne_nil cs)
      · simp [splitSlash, hc, ih, hs]

theorem splitSlash_noSlash (l : List Char) : ∀ e ∈ splitSlash l, '/' ∉ e := by
  induction l with
  | nil => simp [splitSlash]
  | cons c cs ih =>
    by_cases hc : c = '/'
    · intro e he
      simp only [splitSlash, hc, if_true, List.mem_cons] at he
      rcases he with rfl | he
      · simp
      · exact ih e he
    · rcases hs : splitSlash cs with _ | ⟨h, t⟩
      · exact absurd hs (splitSlash_ne_nil cs)
      · rw [hs] at ih
        intro e he
        simp only [splitSlash, hc, if_false, hs, List.mem_cons] at he
        rcases he with rfl | he
        · have := ih h (by simp)
          simp only [List.mem_cons, not_or]
          exact ⟨fun h1 => hc h1.symm, this⟩
        · exact ih e (by simp [he])

theorem splitSlash_of_noSlash (l : List Char) (h : '/' ∉ l) : splitSlash l = [l] := by
  induction l with
  | nil => rfl
  | cons c cs ih =>
    simp only [List.mem_cons, not_or] at h
    have hc : c ≠ '/' := fun h1 => h.1 h1.symm
    simp [splitSlash, hc, ih h.2]

theorem elements_append (a b : String) : elements (a ++ "/" ++ b) = elements a ++ elements b := by
  have h : (a ++ "/" ++ b).data = a.data ++ '/' :: b.data := by
    simp [String.data_append]
  simp [elements, h, splitSlash_append_slash]

theorem elements_noSlash (p e : String) (he : e ∈ elements p) : '/' ∉ e.data := by
  simp only [elements, List.mem_map] at he
  obtain ⟨l, hl, rfl⟩ := he
  exact splitSlash_noSlash _ l hl

theorem elements_single (e : String) (h : '/' ∉ e.data) : elements e = [e] := by
  simp [elements, splitSlash_of_noSlash _ h]

theorem cleanStep_cleanStack (rooted : Bool) (acc : List String) (e : String)
    (h : CleanStack rooted acc) (he : '/' ∉ e.data) : CleanStack rooted (cleanStep rooted acc e) := by
  unfold cleanStep
  split
  · exact h
  · rename_i h1
    have hdd : (".." : String) ≠ "" ∧ (".." : String) ≠ "." ∧ '/' ∉ (".." : String).data := by
      decide
    split
    · rename_i h2
      cases acc with
      | nil =>
        cases rooted with
        | true => exact h
        | false =>
          refine ⟨⟨[], 1, rfl, by simp, by simp⟩, ?_⟩
          intro x hx
          simp only [Bool.false_eq_true, if_false, List.mem_singleton] at hx
          subst hx
          exact hdd
      | cons top rest =>
        obtain ⟨⟨ns, k, hacc, hns, hk⟩, hn⟩ := h
        simp only
        split
        · rename_i htop
          subst htop
          have hns0 : ns = [] := by
            cases ns with
            | nil => rfl
            | cons a as =>
              simp only [List.cons_append, List.cons.injEq] at hacc
              exact absurd (by rw [← hacc.1]; simp) hns
          subst hns0
          refine ⟨⟨[], k + 1, ?_, by simp, ?_⟩, ?_⟩
          · rw [List.nil_append] at hacc
            rw [List.nil_append, List.replicate_succ, ← hacc]
          · intro hr
            have := hk hr
            subst this
            simp at hacc
          · intro x hx
            simp only [List.mem_cons] at hx
            rcases hx with rfl | hx
            · exact hdd
            · exact hn x (by simpa using hx)
        · rename_i htop
          cases ns with
          | nil =>
            rw [List.nil_append] at hacc
            have : top ∈ List.replicate k ".." := by rw [← hacc]; simp
            exact absurd (List.eq_of_mem_replicate this) htop
          | cons a as =>
            simp only [List.cons_append, List.cons.injEq] at hacc
            refine ⟨⟨as, k, hacc.2, fun h => hns (by simp [h]), hk⟩, ?_⟩
            intro x hx
            exact hn x (by simp [hx])
    · rename_i h2
      obtain ⟨⟨ns, k, hacc, hns, hk⟩, hn⟩ := h
      refine ⟨⟨e :: ns, k, by simp [hacc], ?_, hk⟩, ?_⟩
      · simp only [List.mem_cons, not_or]
        exact ⟨fun h => h2 h.symm, hns⟩
      · intro x hx
        simp only [List.mem_cons] at hx
        rcases hx with rfl | hx
        · exact ⟨fun h => h1 (Or.inl h), fun h => h1 (Or.inr h), he⟩
        · exact hn x hx

theorem foldl_cleanStep_cleanStack (rooted : Bool) (l : List String) :
    ∀ acc, CleanStack rooted acc → (∀ e ∈ l, '/' ∉ e.data) →
      CleanStack rooted (l.foldl (cleanStep rooted) acc) := by
  induction l with
  | nil => intro acc h _; exact h
  | cons e l ih =>
    intro acc h hl
    exact ih _ (cleanStep_cleanStack rooted acc e h (hl e (by simp)))
      (fun x hx => hl x (by simp [hx]))

theorem cleanStack_nil (rooted : Bool) : CleanStack rooted [] :=
  ⟨⟨[], 0, rfl, by simp, fun _ => rfl⟩, by simp⟩

/-- The cleaned elements of a path are in clean form. -/
theorem cleanElements_cleanStack (p : String) :
    CleanStack (isRooted p) (cleanElements p).reverse := by
  unfold cleanElements
  rw [List.reverse_reverse]
  exact foldl_cleanStep_cleanStack _ _ [] (cleanStack_nil _) (fun e he => elements_noSlash p e he)

theorem cleanStep_normal (rooted : Bool) (acc : List String) (e : String)
    (h1 : e ≠ "") (h2 : e ≠ ".") (h3 : e ≠ "..") : cleanStep rooted acc e = e :: acc := by
  simp [cleanStep, h1, h2, h3]

theorem foldl_cleanStep_normal (rooted : Bool) (l : List String) :
    ∀ acc, (∀ e ∈ l, e ≠ "" ∧ e ≠ "." ∧ e ≠ "..") →
      l.foldl (cleanStep rooted) acc = l.reverse ++ acc := by
  induction l with
  | nil => intro acc _; rfl
  | cons e l ih =>
    intro acc h
    obtain ⟨h1, h2, h3⟩ := h e (by simp)
    rw [List.foldl_cons, cleanStep_normal rooted acc e h1 h2 h3,
      ih _ (fun x hx => h x (by simp [hx]))]
    simp

theorem foldl_cleanStep_dotdots (k : Nat) :
    ∀ j, (List.replicate k "..").foldl (cleanStep false) (List.replicate j "..") =
      List.replicate (k + j) ".." := by
  induction k with
  | zero => intro j; simp
  | succ k ih =>
    intro j
    have hstep : cleanStep false (List.replicate j "..") ".." = List.replicate (j + 1) ".." := by
      cases j with
      | zero => simp [cleanStep]
      | succ j => simp [cleanStep, List.replicate_succ]
    rw [List.replicate_succ, List.foldl_cons, hstep, ih (j + 1)]
    congr 1
    omega

/-- Cleaning a path in clean form gives it back. -/
theorem foldl_cleanStep_reverse (rooted : Bool) (acc : List String) (h : CleanStack rooted acc) :
    acc.reverse.foldl (cleanStep rooted) [] = acc := by
  obtain ⟨⟨ns, k, rfl, hns, hk⟩, hn⟩ := h
  have hnorm : ∀ e ∈ ns.reverse, e ≠ "" ∧ e ≠ "." ∧ e ≠ ".." := by
    intro e he
    rw [List.mem_reverse] at he
    exact ⟨(hn e (by simp [he])).1, (hn e (by simp [he])).2.1, fun h => hns (h ▸ he)⟩
  rw [List.reverse_append, List.foldl_append, List.reverse_replicate]
  cases rooted with
  | true =>
    have := hk rfl
    subst this
    simp only [List.replicate_zero, List.foldl_nil]
    rw [foldl_cleanStep_normal true _ [] hnorm]
    simp
  | false =>
    have := foldl_cleanStep_dotdots k 0
    simp only [List.replicate_zero, Nat.add_zero] at this
    rw [this, foldl_cleanStep_normal false _ _ hnorm]
    simp

theorem elements_joinSlash (l : List String) (hl : l ≠ []) (h : ∀ e ∈ l, '/' ∉ e.data) :
    elements (joinSlash l) = l := by
  induction l with
  | nil => exact absurd rfl hl
  | cons e rest ih =>
    cases rest with
    | nil => exact elements_single e (h e (by simp))
    | cons f rest =>
      rw [joinSlash, elements_append, elements_single e (h e (by simp)),
        ih (by simp) (fun x hx => h x (by simp [hx]))]
      rfl

theorem cleanStep_empty (rooted : Bool) (acc : List String) : cleanStep rooted acc "" = acc := by
  simp [cleanStep]

theorem isRooted_append_slash (a b : String) (ha : a ≠ "") :
    isRooted (a ++ "/" ++ b) = isRooted a := by
  have h : (a ++ "/" ++ b).data = a.data ++ '/' :: b.data := by
    simp [String.data_append]
  unfold isRooted
  rw [h]
  rcases hd : a.data with _ | ⟨c, cs⟩
  · exact absurd (String.ext hd) ha
  · rfl

/-- Cleaning is idempotent: the cleaned path has the same cleaned elements and
is rooted when the path is. -/
theorem filepathClean_clean (p : String) :
    cleanElements (filepathClean p) = cleanElements p ∧
      isRooted (filepathClean p) = isRooted p := by
  have hcs := cleanElements_cleanStack p
  have hns : ∀ e ∈ cleanElements p, '/' ∉ e.data := by
    intro e he
    exact (hcs.normal e (by simp [he])).2.2
  have hre := foldl_cleanStep_reverse _ _ hcs
  rw [List.reverse_reverse] at hre
  have key : ∀ q, cleanElements q =
      (List.foldl (cleanStep (isRooted q)) [] (elements q)).reverse := fun q => rfl
  unfold filepathClean
  split
  · rename_i hp
    subst hp
    decide
  · split
    · rename_i _ hr
      have hroot : isRooted ("/" ++ joinSlash (cleanElements p)) = true := by
        simp [isRooted, String.data_append]
      refine ⟨?_, by rw [hroot, hr]⟩
      have hq : "/" ++ joinSlash (cleanElements p) = "" ++ "/" ++ joinSlash (cleanElements p) := by
        simp
      have hel : elements ("/" ++ joinSlash (cleanElements p)) =
          "" :: elements (joinSlash (cleanElements p)) := by
        rw [hq, elements_append]
        rfl
      rw [key ("/" ++ joinSlash (cleanElements p)), hroot, hel, List.foldl_cons, cleanStep_empty]
      by_cases hl : cleanElements p = []
      · rw [hl]
        decide
      · rw [elements_joinSlash _ hl hns, ← hr, hre, List.reverse_reverse]
    · rename_i _ hr
      simp only [Bool.not_eq_true] at hr
      split
      · rename_i hl
        rw [hl, hr]
        decide
      · rename_i hl
        have hel := elements_joinSlash _ hl hns
        have hroot : isRooted (joinSlash (cleanElements p)) = false := by
          rcases hc : cleanElements p with _ | ⟨e, rest⟩
          · exact absurd hc hl
          · have he := hcs.normal e (by simp [hc])
            have hdata : ∃ c cs, e.data = c :: cs := by
              rcases hd : e.data with _ | ⟨c, cs⟩
              · exact absurd (String.ext hd) he.1
              · exact ⟨c, cs, rfl⟩
            obtain ⟨c, cs, hd⟩ := hdata
            have hcne : c ≠ '/' := by
              intro h
              apply he.2.2
              rw [hd, h]
              simp
            cases rest with
            | nil => simp [joinSlash, isRooted, hd, hcne]
            | cons f rest => simp [joinSlash, isRooted, String.data_append, hd, hcne]
        refine ⟨?_, by rw [hroot, hr]⟩
        rw [key (joinSlash (cleanElements p)), hroot, hel, ← hr, hre, List.reverse_reverse]

theorem foldl_cleanStep_noDotDot (rooted : Bool) (l : List String) (hl : ".." ∉ l) :
    ∀ acc : List String, ∃ N : List String,
      l.foldl (cleanStep rooted) acc = N.reverse ++ acc ∧ ".." ∉ N := by
  induction l with
  | nil => intro acc; exact ⟨[], rfl, by simp⟩
  | cons e l ih =>
    intro acc
    simp only [List.mem_cons, not_or] at hl
    by_cases h1 : e = "" ∨ e = "."
    · obtain ⟨N, hN, hdd⟩ := ih hl.2 acc
      refine ⟨N, ?_, hdd⟩
      rw [List.foldl_cons]
      simp only [cleanStep, h1, if_true]
      exact hN
    · have h2 : e ≠ ".." := fun h => hl.1 h.symm
      obtain ⟨N, hN, hdd⟩ := ih hl.2 (e :: acc)
      refine ⟨e :: N, ?_, ?_⟩
      · rw [List.foldl_cons]
        simp only [cleanStep, h1, h2, if_false]
        rw [hN]
        simp
      · simp only [List.mem_cons, not_or]
        exact ⟨fun h => h2 h.symm, hdd⟩

/-- A path is inside itself. -/
theorem inside_self (t : String) : inside t t = true := by
  simp [inside]

/-- Joined to a non-empty target, a name without `..` elements gives a path
inside the target. -/
theorem inside_join (target name : String) (hT : target ≠ "") (hn : ".." ∉ elements name) :
    inside target (filepathJoin target name) = true := by
  obtain ⟨hce, hcr⟩ := filepathClean_clean (target ++ "/" ++ name)
  have hroot := isRooted_append_slash target name hT
  have key : ∀ q, cleanElements q =
      (List.foldl (cleanStep (isRooted q)) [] (elements q)).reverse := fun q => rfl
  obtain ⟨N, hN, hdd⟩ := foldl_cleanStep_noDotDot (isRooted target) (elements name) hn
    (List.foldl (cleanStep (isRooted target)) [] (elements target))
  have hel : cleanElements (target ++ "/" ++ name) = cleanElements target ++ N := by
    rw [key (target ++ "/" ++ name), hroot, elements_append, List.foldl_append, hN,
      List.reverse_append, List.reverse_reverse, ← key target]
  unfold filepathJoin
  rw [if_pos hT]
  unfold inside
  rw [hce, hcr, hroot, hel]
  have hpre : (cleanElements target).isPrefixOf (cleanElements target ++ N) = true :=
    List.isPrefixOf_iff_prefix.2 (List.prefix_append _ _)
  simp [hpre, hdd]

end Posix

/-! ## The claims about the handler -/

section Claims

variable {σ : Type}

/-- C1, as stated, fails: when the SDK session cannot be created, no signal
call is made at all (so every signal call made returned without error), and the
panic of `session.Must` leaves `handler`, whose recovering closure is not yet
deferred. -/
theorem no_session_no_signal :
    (∀ x ∈ (handler (posix noSessionEnv) sampleEvent tmpTree).trace,
        x.call.isSignal = true → x.err = none) ∧
      signals (handler (posix noSessionEnv) sampleEvent tmpTree).trace = [] ∧
      (handler (posix noSessionEnv) sampleEvent tmpTree).out =
        .panic (.error "SharedConfigLoadError") := by
  decide

/-- C1, amended: in every invocation (any event, any behaviour of the
services) in which the SDK session of `handler` is created and every signal
call made returns without error, `handler` makes exactly one signal call, and
every record after that call is a log line: the signal is the last call to a
service. -/
theorem handler_exactly_one_signal (w : World σ) (ev : CodePipelineEvent) (s : σ)
    (hs : (w (.newSession none) s).1.err = none)
    (hsig : ∀ x ∈ (handler w ev s).trace, x.call.isSignal = true → x.err = none) :
    (signals (handler w ev s).trace).length = 1 ∧
      ∀ x ∈ afterSignal (handler w ev s).trace, x.call.isLog = true := by
  obtain ⟨D, tail, htr, hD, hcase⟩ := handler_shape w ev s hs
  rw [htr] at hsig ⊢
  have hDs : ∀ x ∈ (⟨.newSession none, none⟩ : Rec) :: D, x.call.isSignal = false := by
    intro x hx
    simp only [List.mem_cons] at hx
    rcases hx with rfl | hx
    · rfl
    · exact isFetch_not_signal _ (hD x hx)
  generalize (handler w ev s).out = o at hcase
  rcases hcase with ⟨e2, rfl, -⟩ | ⟨-, hend⟩
  · exact one_signal_fail (⟨.newSession none, none⟩ :: D) _ e2 hDs hsig
  · cases hend with
    | readFailed e e2 =>
      have h : (⟨.newSession none, none⟩ : Rec) ::
          (D ++ ⟨.readFile localUnzipedArtifactPath, some e⟩ ::
            failTail ev.codePipelineJob.id e2) =
          ((⟨.newSession none, none⟩ : Rec) :: D ++
            [⟨.readFile localUnzipedArtifactPath, some e⟩]) ++
            failTail ev.codePipelineJob.id e2 := by simp
      rw [h] at hsig ⊢
      refine one_signal_fail _ _ e2 ?_ hsig
      intro x hx
      simp only [List.mem_append, List.mem_singleton] at hx
      rcases hx with hx | rfl
      · exact hDs x hx
      · rfl
    | invalid body e e2 =>
      have h : (⟨.newSession none, none⟩ : Rec) ::
          (D ++ (validateHead body (some e) ++ failTail ev.codePipelineJob.id e2)) =
          ((⟨.newSession none, none⟩ : Rec) :: D ++ validateHead body (some e)) ++
            failTail ev.codePipelineJob.id e2 := by simp
      rw [h] at hsig ⊢
      refine one_signal_fail _ _ e2 ?_ hsig
      intro x hx
      simp only [List.mem_append] at hx
      rcases hx with hx | hx
      · exact hDs x hx
      · simp only [validateHead, List.mem_cons, List.mem_singleton, List.not_mem_nil,
          or_false] at hx
        rcases hx with rfl | rfl | rfl <;> rfl
    | reported body =>
      have h : (⟨.newSession none, none⟩ : Rec) ::
          (D ++ (successHead body ev.codePipelineJob.id none ++
            [⟨.log "Code Pipeline success signal output", none⟩])) =
          ((⟨.newSession none, none⟩ : Rec) :: D ++ (validateHead body none ++
            [⟨.log "validation output", none⟩, ⟨.log "Done validating", none⟩,
              ⟨.log "Sending success signal to Code Pipeline", none⟩])) ++
            ⟨.putJobSuccessResult ev.codePipelineJob.id, none⟩ ::
              [⟨.log "Code Pipeline success signal output", none⟩] := by
        simp [successHead]
      rw [h]
      apply signals_split
      · intro x hx
        simp only [List.mem_append] at hx
        rcases hx with hx | hx | hx
        · exact hDs x hx
        · simp only [validateHead, List.mem_cons, List.mem_singleton, List.not_mem_nil,
            or_false] at hx
          rcases hx with rfl | rfl | rfl <;> rfl
        · simp only [List.mem_cons, List.mem_singleton, List.not_mem_nil, or_false] at hx
          rcases hx with rfl | rfl | rfl <;> rfl
      · rfl
      · intro x hx
        simp only [List.mem_singleton] at hx
        subst hx
        rfl
    | unreported body e e2 =>
      have := hsig ⟨.putJobSuccessResult ev.codePipelineJob.id, some e⟩
        (by simp [successHead]) rfl
      simp at this

/-- C1 at the sample event in the all-good environment. -/
theorem handler_exactly_one_signal_witness :
    (posix goodEnv (.newSession none) tmpTree).1.err = none ∧
      (∀ x ∈ (handler (posix goodEnv) sampleEvent tmpTree).trace,
        x.call.isSignal = true → x.err = none) ∧
      (signals (handler (posix goodEnv) sampleEvent tmpTree).trace).length = 1 ∧
      ∀ x ∈ afterSignal (handler (posix goodEnv) sampleEvent tmpTree).trace,
        x.call.isLog = true :=
  ⟨by decide, by decide,
    handler_exactly_one_signal (posix goodEnv) sampleEvent tmpTree (by decide) (by decide)⟩

/-- C2, as stated, fails: when download, extraction and validation succeed and
`PutJobSuccessResult` returns an error, `handler` does call
`PutJobFailureResult`, and when that call goes through it returns nil. -/
theorem success_signal_failure_not_fatal :
    (⟨.putJobSuccessResult "job-1", some "ThrottlingException"⟩ : Rec) ∈
        (handler (posix throttledEnv) sampleEvent tmpTree).trace ∧
      (⟨.putJobFailureResult "job-1", none⟩ : Rec) ∈
        (handler (posix throttledEnv) sampleEvent tmpTree).trace ∧
      (handler (posix throttledEnv) sampleEvent tmpTree).out = .ret none := by
  decide

/-- C2, amended: when the success signal call returns an error, the deferred
closure recovers the panic and calls `PutJobFailureResult` for the job of the
event; these two are the signal calls of the invocation, in this order.  When
the failure signal call returns no error `handler` returns nil, and when it
returns an error that error leaves `handler` as a panic. -/
theorem success_signal_failure_recovered (w : World σ) (ev : CodePipelineEvent) (s : σ)
    (j : String) (e : Err)
    (h : (⟨.putJobSuccessResult j, some e⟩ : Rec) ∈ (handler w ev s).trace) :
    ∃ e2, signals (handler w ev s).trace =
        [⟨.putJobSuccessResult ev.codePipelineJob.id, some e⟩,
          ⟨.putJobFailureResult ev.codePipelineJob.id, e2⟩] ∧
      (e2 = none → (handler w ev s).out = .ret none) ∧
      (∀ e3, e2 = some e3 → (handler w ev s).out = .panic (.error e3)) := by
  rcases handler_trace_cases w ev s with ⟨e0, -, htr, -⟩ | ⟨-, D, tail, htr, hD, hcase⟩
  · rw [htr] at h
    simp at h
  · rw [htr] at h ⊢
    have hDs : ∀ x ∈ D, x.call.isSignal = false := fun x hx => isFetch_not_signal _ (hD x hx)
    simp only [List.mem_cons, List.mem_append] at h
    generalize (handler w ev s).out = o at hcase
    rcases h with h | h | h
    · simp at h
    · have := hD _ h
      simp [Call.isFetch] at this
    · rcases hcase with ⟨e2, rfl, -⟩ | ⟨-, hend⟩
      · rcases failTail_mem _ _ _ h with h | h <;> simp [Call.isLog] at h
      · cases hend with
        | readFailed e1 e2 =>
          simp only [List.mem_cons] at h
          rcases h with h | h
          · simp at h
          · rcases failTail_mem _ _ _ h with h | h <;> simp [Call.isLog] at h
        | invalid body e1 e2 =>
          simp only [List.mem_append] at h
          rcases h with h | h
          · rcases validateHead_mem _ _ _ h with h | h | h <;> simp [Call.isLog] at h
          · rcases failTail_mem _ _ _ h with h | h <;> simp [Call.isLog] at h
        | reported body =>
          simp only [List.mem_append, List.mem_singleton] at h
          rcases h with h | h
          · rcases successHead_mem _ _ _ _ h with h | h | h | h <;> simp [Call.isLog] at h
          · simp at h
        | unreported body e1 e2 =>
          have he : e1 = e := by
            simp only [List.mem_append] at h
            rcases h with h | h
            · rcases successHead_mem _ _ _ _ h with h | h | h | h <;> simp [Call.isLog] at h
              exact h.2.symm
            · rcases failTail_mem _ _ _ h with h | h <;> simp [Call.isLog] at h
          subst he
          refine ⟨e2, ?_, ?_, ?_⟩
          · rw [signals_cons_not ⟨.newSession none, none⟩ _ rfl, signals_append, signals_append, signals_none D hDs,
              signals_successHead, signals_failTail]
            rfl
          · rintro rfl
            rfl
          · rintro e3 rfl
            rfl

/-- C2 amended, at the sample event when the success signal call is throttled. -/
theorem success_signal_failure_recovered_witness :
    (⟨.putJobSuccessResult "job-1", some "ThrottlingException"⟩ : Rec) ∈
        (handler (posix throttledEnv) sampleEvent tmpTree).trace ∧
      ∃ e2, signals (handler (posix throttledEnv) sampleEvent tmpTree).trace =
          [⟨.putJobSuccessResult sampleEvent.codePipelineJob.id, some "ThrottlingException"⟩,
            ⟨.putJobFailureResult sampleEvent.codePipelineJob.id, e2⟩] ∧
        (e2 = none → (handler (posix throttledEnv) sampleEvent tmpTree).out = .ret none) ∧
        (∀ e3, e2 = some e3 →
          (handler (posix throttledEnv) sampleEvent tmpTree).out = .panic (.error e3)) :=
  ⟨by decide, success_signal_failure_recovered (posix throttledEnv) sampleEvent tmpTree
    "job-1" "ThrottlingException" (by decide)⟩

/-- C8: every signal call `handler` makes, `PutJobSuccessResult` or
`PutJobFailureResult`, carries the job identifier of the event. -/
theorem signal_carries_job_id (w : World σ) (ev : CodePipelineEvent) (s : σ) (x : Rec)
    (hx : x ∈ (handler w ev s).trace) (hsig : x.call.isSignal = true) :
    x.call.jobId = some ev.codePipelineJob.id := by
  rcases handler_mem w ev s x hx with h | h | h | h | h | h
  · rw [isFetch_not_signal _ h] at hsig
    cases hsig
  · rw [h] at hsig
    cases hsig
  · cases hc : x.call <;> simp_all [Call.isValidate, Call.isSignal]
  · rw [h]
    rfl
  · rw [h]
    rfl
  · cases hc : x.call <;> simp_all [Call.isLog, Call.isSignal]

/-- C8 at the success signal of the sample event. -/
theorem signal_carries_job_id_witness :
    (⟨.putJobSuccessResult "job-1", none⟩ : Rec) ∈
        (handler (posix goodEnv) sampleEvent tmpTree).trace ∧
      (⟨.putJobSuccessResult "job-1", none⟩ : Rec).call.isSignal = true ∧
      (⟨.putJobSuccessResult "job-1", none⟩ : Rec).call.jobId =
        some sampleEvent.codePipelineJob.id :=
  ⟨by decide, by decide,
    signal_carries_job_id (posix goodEnv) sampleEvent tmpTree _ (by decide) (by decide)⟩

/-- C3: in every invocation that reaches the validation call (download,
extraction and the read of the template succeeded), if the call returns an
error the failure signal is sent and the success signal is not; if it returns
no error the success signal is sent, and when that signal call does not fail
the failure signal is not. -/
theorem validation_decides_signal (w : World σ) (ev : CodePipelineEvent) (s : σ)
    (body : Bytes) (ve : Option Err)
    (hv : (⟨.validateTemplate body, ve⟩ : Rec) ∈ (handler w ev s).trace) :
    (ve ≠ none →
        (∃ e2, (⟨.putJobFailureResult ev.codePipelineJob.id, e2⟩ : Rec) ∈ (handler w ev s).trace) ∧
          ∀ x ∈ (handler w ev s).trace, x.call.isSuccessSignal = false) ∧
      (ve = none →
        ∃ e1, (⟨.putJobSuccessResult ev.codePipelineJob.id, e1⟩ : Rec) ∈ (handler w ev s).trace ∧
          (e1 = none → ∀ x ∈ (handler w ev s).trace, x.call.isFailureSignal = false)) := by
  rcases handler_trace_cases w ev s with ⟨e0, -, htr, -⟩ | ⟨-, D, tail, htr, hD, hcase⟩
  · rw [htr] at hv
    simp at hv
  · rw [htr] at hv ⊢
    have hS : ∀ x ∈ (⟨.newSession none, none⟩ : Rec) :: D, x.call.isFetch = true := by
      intro x hx
      simp only [List.mem_cons] at hx
      rcases hx with rfl | hx
      · rfl
      · exact hD x hx
    have hfs : ∀ c : Call, c.isFetch = true → c.isSuccessSignal = false ∧
        c.isFailureSignal = false := by
      intro c hc
      cases c <;> simp_all [Call.isFetch, Call.isSuccessSignal, Call.isFailureSignal]
    have hls : ∀ c : Call, c.isLog = true → c.isSuccessSignal = false ∧
        c.isFailureSignal = false := by
      intro c hc
      cases c <;> simp_all [Call.isLog, Call.isSuccessSignal, Call.isFailureSignal]
    simp only [List.mem_cons, List.mem_append] at hv
    generalize (handler w ev s).out = o at hcase
    rcases hv with hv | hv | hv
    · simp at hv
    · have := hD _ hv
      simp [Call.isFetch] at this
    · rcases hcase with ⟨e2, rfl, -⟩ | ⟨-, hend⟩
      · rcases failTail_mem _ _ _ hv with h | h <;> simp [Call.isLog] at h
      · cases hend with
        | readFailed e1 e2 =>
          simp only [List.mem_cons] at hv
          rcases hv with h | h
          · simp at h
          · rcases failTail_mem _ _ _ h with h | h <;> simp [Call.isLog] at h
        | invalid body1 e1 e2 =>
          have he : ve = some e1 := by
            simp only [List.mem_append] at hv
            rcases hv with h | h
            · rcases validateHead_mem _ _ _ h with h | h | h <;> simp [Call.isLog] at h
              exact h.2
            · rcases failTail_mem _ _ _ h with h | h <;> simp [Call.isLog] at h
          subst he
          refine ⟨fun _ => ⟨⟨e2, ?_⟩, ?_⟩, fun h => by simp at h⟩
          · simp [failTail_has]
          · intro x hx
            rw [← List.cons_append, List.mem_append, List.mem_append] at hx
            rcases hx with hx | hx | hx
            · exact (hfs _ (hS x hx)).1
            · rcases validateHead_mem _ _ _ hx with rfl | rfl | h
              · rfl
              · rfl
              · exact (hls _ h).1
            · rcases failTail_mem _ _ _ hx with rfl | h
              · rfl
              · exact (hls _ h).1
        | reported body1 =>
          have he : ve = none := by
            simp only [List.mem_append, List.mem_singleton] at hv
            rcases hv with h | h
            · rcases successHead_mem _ _ _ _ h with h | h | h | h <;> simp [Call.isLog] at h
              exact h.2
            · simp at h
          subst he
          refine ⟨fun h => by simp at h, fun _ => ⟨none, ?_, fun _ => ?_⟩⟩
          · simp [successHead]
          · intro x hx
            rw [← List.cons_append, List.mem_append, List.mem_append] at hx
            rcases hx with hx | hx | hx
            · exact (hfs _ (hS x hx)).2
            · rcases successHead_mem _ _ _ _ hx with rfl | rfl | rfl | h
              · rfl
              · rfl
              · rfl
              · exact (hls _ h).2
            · simp only [List.mem_singleton] at hx
              subst hx
              rfl
        | unreported body1 e1 e2 =>
          have he : ve = none := by
            simp only [List.mem_append] at hv
            rcases hv with h | h
            · rcases successHead_mem _ _ _ _ h with h | h | h | h <;> simp [Call.isLog] at h
              exact h.2
            · rcases failTail_mem _ _ _ h with h | h <;> simp [Call.isLog] at h
          subst he
          refine ⟨fun h => by simp at h, fun _ => ⟨some e1, ?_, fun h => by simp at h⟩⟩
          simp [successHead]

/-- C3 at the sample event when the validation service rejects the template. -/
theorem validation_decides_signal_witness :
    (⟨.validateTemplate [1, 2, 3], some "ValidationError"⟩ : Rec) ∈
        (handler (posix invalidEnv) sampleEvent tmpTree).trace ∧
      ((some "ValidationError" ≠ none →
          (∃ e2, (⟨.putJobFailureResult sampleEvent.codePipelineJob.id, e2⟩ : Rec) ∈
            (handler (posix invalidEnv) sampleEvent tmpTree).trace) ∧
            ∀ x ∈ (handler (posix invalidEnv) sampleEvent tmpTree).trace,
              x.call.isSuccessSignal = false) ∧
        (some "ValidationError" = none →
          ∃ e1, (⟨.putJobSuccessResult sampleEvent.codePipelineJob.id, e1⟩ : Rec) ∈
              (handler (posix invalidEnv) sampleEvent tmpTree).trace ∧
            (e1 = none → ∀ x ∈ (handler (posix invalidEnv) sampleEvent tmpTree).trace,
              x.call.isFailureSignal = false))) :=
  ⟨by decide, validation_decides_signal (posix invalidEnv) sampleEvent tmpTree [1, 2, 3]
    (some "ValidationError") (by decide)⟩

/-- A failed download, or a failed read of the template, among the records of
an invocation: the failure signal is sent, the success signal is not, and the
validation service is never called. -/
theorem failed_fetch_record (w : World σ) (ev : CodePipelineEvent) (s : σ)
    (x : Rec) (hx : x ∈ (handler w ev s).trace) (herr : x.err ≠ none)
    (hc : x.call.isDownload = true ∨ x.call.isReadFile = true) :
    (∃ e2, (⟨.putJobFailureResult ev.codePipelineJob.id, e2⟩ : Rec) ∈ (handler w ev s).trace) ∧
      (∀ y ∈ (handler w ev s).trace, y.call.isSuccessSignal = false) ∧
      ∀ y ∈ (handler w ev s).trace, y.call.isValidate = false := by
  rcases handler_trace_cases w ev s with ⟨e0, -, htr, -⟩ | ⟨-, D, tail, htr, hD, hcase⟩
  · rw [htr] at hx
    simp only [List.mem_singleton] at hx
    subst hx
    simp [Call.isDownload, Call.isReadFile] at hc
  · rw [htr] at hx ⊢
    have hS : ∀ y ∈ (⟨.newSession none, none⟩ : Rec) :: D, y.call.isFetch = true := by
      intro y hy
      simp only [List.mem_cons] at hy
      rcases hy with rfl | hy
      · rfl
      · exact hD y hy
    have hfs : ∀ c : Call, c.isFetch = true → c.isSuccessSignal = false ∧
        c.isValidate = false ∧ c.isReadFile = false := by
      intro c hc
      cases c <;> simp_all [Call.isFetch, Call.isSuccessSignal, Call.isValidate, Call.isReadFile]
    have hls : ∀ c : Call, c.isLog = true → c.isSuccessSignal = false ∧
        c.isValidate = false ∧ c.isReadFile = false ∧ c.isDownload = false := by
      intro c hc
      cases c <;> simp_all [Call.isLog, Call.isSuccessSignal, Call.isValidate, Call.isReadFile,
        Call.isDownload]
    have hfail : ∀ (pre : List Rec) (e2 : Option Err),
        (∀ y ∈ pre, y.call.isSuccessSignal = false ∧ y.call.isValidate = false) →
        (∃ e3, (⟨.putJobFailureResult ev.codePipelineJob.id, e3⟩ : Rec) ∈
          pre ++ failTail ev.codePipelineJob.id e2) ∧
        (∀ y ∈ pre ++ failTail ev.codePipelineJob.id e2, y.call.isSuccessSignal = false) ∧
        ∀ y ∈ pre ++ failTail ev.codePipelineJob.id e2, y.call.isValidate = false := by
      intro pre e2 hpre
      refine ⟨⟨e2, by simp [failTail_has]⟩, ?_, ?_⟩
      · intro y hy
        rw [List.mem_append] at hy
        rcases hy with hy | hy
        · exact (hpre y hy).1
        · rcases failTail_mem _ _ _ hy with rfl | h
          · rfl
          · exact (hls _ h).1
      · intro y hy
        rw [List.mem_append] at hy
        rcases hy with hy | hy
        · exact (hpre y hy).2
        · rcases failTail_mem _ _ _ hy with rfl | h
          · rfl
          · exact (hls _ h).2.1
    generalize (handler w ev s).out = o at hcase
    rcases hcase with ⟨e2, rfl, -⟩ | ⟨hdl, hend⟩
    · exact hfail (⟨.newSession none, none⟩ :: D) e2
        (fun y hy => ⟨(hfs _ (hS y hy)).1, (hfs _ (hS y hy)).2.1⟩)
    · have hxt : x ∈ tail := by
        simp only [List.mem_cons, List.mem_append] at hx
        rcases hx with rfl | hx | hx
        · simp at herr
        · rcases hc with hc | hc
          · exact absurd (hdl x hx hc) herr
          · rw [(hfs _ (hD x hx)).2.2] at hc
            cases hc
        · exact hx
      cases hend with
      | readFailed e1 e2 =>
        have h : (⟨.newSession none, none⟩ : Rec) ::
            (D ++ ⟨.readFile localUnzipedArtifactPath, some e1⟩ ::
              failTail ev.codePipelineJob.id e2) =
            ((⟨.newSession none, none⟩ : Rec) :: D ++
              [⟨.readFile localUnzipedArtifactPath, some e1⟩]) ++
              failTail ev.codePipelineJob.id e2 := by simp
        rw [h]
        apply hfail
        intro y hy
        simp only [List.mem_append, List.mem_singleton] at hy
        rcases hy with hy | rfl
        · exact ⟨(hfs _ (hS y hy)).1, (hfs _ (hS y hy)).2.1⟩
        · exact ⟨rfl, rfl⟩
      | invalid body1 e1 e2 =>
        exfalso
        simp only [List.mem_append] at hxt
        rcases hxt with h | h
        · rcases validateHead_mem _ _ _ h with rfl | rfl | h
          · simp at herr
          · simp [Call.isDownload, Call.isReadFile] at hc
          · have := hls _ h
            simp [this] at hc
        · rcases failTail_mem _ _ _ h with rfl | h
          · simp [Call.isDownload, Call.isReadFile] at hc
          · have := hls _ h
            simp [this] at hc
      | reported body1 =>
        exfalso
        simp only [List.mem_append, List.mem_singleton] at hxt
        rcases hxt with h | rfl
        · rcases successHead_mem _ _ _ _ h with rfl | rfl | rfl | h
          · simp at herr
          · simp [Call.isDownload, Call.isReadFile] at hc
          · simp [Call.isDownload, Call.isReadFile] at hc
          · have := hls _ h
            simp [this] at hc
        · simp at herr
      | unreported body1 e1 e2 =>
        exfalso
        simp only [List.mem_append] at hxt
        rcases hxt with h | h
        · rcases successHead_mem _ _ _ _ h with rfl | rfl | rfl | h
          · simp at herr
          · simp [Call.isDownload, Call.isReadFile] at hc
          · simp [Call.isDownload, Call.isReadFile] at hc
          · have := hls _ h
            simp [this] at hc
        · rcases failTail_mem _ _ _ h with rfl | h
          · simp [Call.isDownload, Call.isReadFile] at hc
          · have := hls _ h
            simp [this] at hc

/-- C4: in every invocation in which a step before validation fails - the
download returns an error, or the session is created, the fetch step returns
(the archive is downloaded and extracted without error) and the read of
`/tmp/merged.yml` that follows is answered with an error - the failure signal
is sent, the success signal is not, and the validation service is never
called. -/
theorem early_failure_skips_validation (w : World σ) (ev : CodePipelineEvent) (s : σ)
    (h : (∃ x ∈ (handler w ev s).trace, x.call.isDownload = true ∧ x.err ≠ none) ∨
      ((w (.newSession none) s).1.err = none ∧
        (downloadArtifacts w ev (w (.newSession none) s).2).out = .ret () ∧
        (w (.readFile localUnzipedArtifactPath)
          (downloadArtifacts w ev (w (.newSession none) s).2).state).1.err ≠ none)) :
    (∃ e2, (⟨.putJobFailureResult ev.codePipelineJob.id, e2⟩ : Rec) ∈ (handler w ev s).trace) ∧
      (∀ y ∈ (handler w ev s).trace, y.call.isSuccessSignal = false) ∧
      ∀ y ∈ (handler w ev s).trace, y.call.isValidate = false := by
  rcases h with ⟨x, hx, hd, herr⟩ | ⟨hs, hda, hr⟩
  · exact failed_fetch_record w ev s x hx herr (Or.inl hd)
  · cases he : (w (.readFile localUnzipedArtifactPath)
        (downloadArtifacts w ev (w (.newSession none) s).2).state).1.err with
    | none => exact absurd he hr
    | some e =>
      exact failed_fetch_record w ev s ⟨.readFile localUnzipedArtifactPath, some e⟩
        (handler_read_failed w ev s hs hda e he) (by simp) (Or.inr rfl)

/-- C4 at the sample event, when the bucket holds no object and when the
archive holds no template. -/
theorem early_failure_skips_validation_witness :
    ((∃ x ∈ (handler (posix missingEnv) sampleEvent tmpTree).trace,
        x.call.isDownload = true ∧ x.err ≠ none) ∧
      (∃ e2, (⟨.putJobFailureResult sampleEvent.codePipelineJob.id, e2⟩ : Rec) ∈
        (handler (posix missingEnv) sampleEvent tmpTree).trace) ∧
      (∀ y ∈ (handler (posix missingEnv) sampleEvent tmpTree).trace,
        y.call.isSuccessSignal = false) ∧
      ∀ y ∈ (handler (posix missingEnv) sampleEvent tmpTree).trace,
        y.call.isValidate = false) ∧
    (((posix noTemplateEnv (.newSession none) tmpTree).1.err = none ∧
        (downloadArtifacts (posix noTemplateEnv) sampleEvent
          (posix noTemplateEnv (.newSession none) tmpTree).2).out = .ret () ∧
        (posix noTemplateEnv (.readFile localUnzipedArtifactPath)
          (downloadArtifacts (posix noTemplateEnv) sampleEvent
            (posix noTemplateEnv (.newSession none) tmpTree).2).state).1.err ≠ none) ∧
      (∃ e2, (⟨.putJobFailureResult sampleEvent.codePipelineJob.id, e2⟩ : Rec) ∈
        (handler (posix noTemplateEnv) sampleEvent tmpTree).trace) ∧
      (∀ y ∈ (handler (posix noTemplateEnv) sampleEvent tmpTree).trace,
        y.call.isSuccessSignal = false) ∧
      ∀ y ∈ (handler (posix noTemplateEnv) sampleEvent tmpTree).trace,
        y.call.isValidate = false) :=
  ⟨⟨by decide, early_failure_skips_validation (posix missingEnv) sampleEvent tmpTree
      (Or.inl (by decide))⟩,
    ⟨by decide, early_failure_skips_validation (posix noTemplateEnv) sampleEvent tmpTree
      (Or.inr (by decide))⟩⟩

/-- C10, as stated, fails: for the event without input artifacts, when the SDK
session cannot be created, no failure signal is sent (no failure-signal call
is made, so none errors) and `handler` does not return nil: the panic of
`session.Must` leaves it. -/
theorem empty_artifacts_no_session :
    emptyEvent.codePipelineJob.data.inputArtifacts = [] ∧
      (∀ x ∈ (handler (posix noSessionEnv) emptyEvent tmpTree).trace,
        x.call.isFailureSignal = false) ∧
      (handler (posix noSessionEnv) emptyEvent tmpTree).out ≠ .ret none ∧
      (handler (posix noSessionEnv) emptyEvent tmpTree).out =
        .panic (.error "SharedConfigLoadError") := by
  decide

/-- C10, amended: for an event without input artifacts, when the SDK session
of `handler` is created, the index fault of `bucket` is recovered: the only
calls are the creation of the session and the failure signal for the job of
the event (with its log lines),
so nothing is downloaded and nothing validated; `handler` returns nil when the
failure signal call returns no error, and panics with its error otherwise. -/
theorem empty_artifacts_recovered (w : World σ) (ev : CodePipelineEvent) (s : σ)
    (hempty : ev.codePipelineJob.data.inputArtifacts = [])
    (hs : (w (.newSession none) s).1.err = none) :
    (handler w ev s).trace = ⟨.newSession none, none⟩ ::
        failTail ev.codePipelineJob.id
          (w (.putJobFailureResult ev.codePipelineJob.id) (w (.newSession none) s).2).1.err ∧
      ((w (.putJobFailureResult ev.codePipelineJob.id) (w (.newSession none) s).2).1.err = none →
        (handler w ev s).out = .ret none) ∧
      (∀ e, (w (.putJobFailureResult ev.codePipelineJob.id)
          (w (.newSession none) s).2).1.err = some e →
        (handler w ev s).out = .panic (.error e)) := by
  obtain ⟨htr, hout⟩ := handler_run w ev s hs
  have hb := bind_panic (downloadArtifacts w ev)
    (fun _ => (do validatecf w; success w ev; pure none : Go σ (Option Err)))
    (w (.newSession none) s).2 .indexOutOfRange
    (by rw [downloadArtifacts_empty w ev _ hempty])
  rw [downloadArtifacts_empty w ev _ hempty] at hb
  obtain ⟨h1, h2⟩ := recovering_fail_panic w ev
    (downloadArtifacts w ev >>= fun _ =>
      (do validatecf w; success w ev; pure none : Go σ (Option Err)))
    (w (.newSession none) s).2 .indexOutOfRange (by rw [hb])
  rw [hb] at h1 h2
  rw [htr, hout, handler_body, h1, h2]
  refine ⟨by simp, ?_, ?_⟩
  · intro h
    rw [h]
    rfl
  · intro e h
    rw [h]
    rfl

/-- C10 at the event without input artifacts. -/
theorem empty_artifacts_recovered_witness :
    emptyEvent.codePipelineJob.data.inputArtifacts = [] ∧
      (posix goodEnv (.newSession none) tmpTree).1.err = none ∧
      (handler (posix goodEnv) emptyEvent tmpTree).trace = ⟨.newSession none, none⟩ ::
        failTail emptyEvent.codePipelineJob.id
          (posix goodEnv (.putJobFailureResult emptyEvent.codePipelineJob.id)
            (posix goodEnv (.newSession none) tmpTree).2).1.err ∧
      ((posix goodEnv (.putJobFailureResult emptyEvent.codePipelineJob.id)
          (posix goodEnv (.newSession none) tmpTree).2).1.err = none →
        (handler (posix goodEnv) emptyEvent tmpTree).out = .ret none) ∧
      (∀ e, (posix goodEnv (.putJobFailureResult emptyEvent.codePipelineJob.id)
          (posix goodEnv (.newSession none) tmpTree).2).1.err = some e →
        (handler (posix goodEnv) emptyEvent tmpTree).out = .panic (.error e)) :=
  ⟨by decide, by decide,
    empty_artifacts_recovered (posix goodEnv) emptyEvent tmpTree (by decide) (by decide)⟩

end Claims

/-! ## The claims about extraction -/

section Extraction

/-- C7, at an archive holding the directory entry `merged.zip/`: creating that
directory fails, as the downloaded archive is a regular file at
`/tmp/merged.zip`, yet `unzip` returns nil and `handler` sends the success
signal and no failure signal. -/
theorem ignored_mkdir_failure :
    (⟨.mkdirAll "/tmp/merged.zip" ⟨true, 0o755⟩, some "ENOTDIR"⟩ : Rec) ∈
        (unzip (posix collidingEnv) "/tmp/merged.zip" "/tmp" zipTree).trace ∧
      (unzip (posix collidingEnv) "/tmp/merged.zip" "/tmp" zipTree).out = .ret none ∧
      (⟨.mkdirAll "/tmp/merged.zip" ⟨true, 0o755⟩, some "ENOTDIR"⟩ : Rec) ∈
        (handler (posix collidingEnv) sampleEvent tmpTree).trace ∧
      (⟨.putJobSuccessResult "job-1", none⟩ : Rec) ∈
        (handler (posix collidingEnv) sampleEvent tmpTree).trace ∧
      ∀ x ∈ (handler (posix collidingEnv) sampleEvent tmpTree).trace,
        x.call.isFailureSignal = false := by
  decide

/-- C9, as stated, fails: the entry `../evil.txt` extracted into `/tmp` is
written at `/evil.txt`, outside `/tmp`. -/
theorem entry_escapes_target :
    (⟨.openFile "/evil.txt" ⟨false, 0o644⟩, none⟩ : Rec) ∈
        (unzip (posix slipEnv) "/tmp/merged.zip" "/tmp" zipTree).trace ∧
      inside "/tmp" "/evil.txt" = false ∧
      (unzip (posix slipEnv) "/tmp/merged.zip" "/tmp" zipTree).state ["evil.txt"] =
        some (.file 0o644 [6, 6, 6]) := by
  decide

/-- C5, as stated, fails: the archive `{a/b.txt, a/c/d.txt}` without directory
entries, extracted into the empty directory `/tmp/T`, makes `unzip` return an
error at the first entry, and no file is written. -/
theorem inferred_directories_not_created :
    (unzip (posix inferredEnv) "/tmp/merged.zip" "/tmp/T" zipTree).out = .ret (some "ENOENT") ∧
      (unzip (posix inferredEnv) "/tmp/merged.zip" "/tmp/T" zipTree).state
        ["tmp", "T", "a", "b.txt"] = none := by
  decide

/-- C6, as stated, fails: a template left at `/tmp/merged.yml` with mode 600 is
overwritten by the entry `merged.yml` of mode 644; `unzip` returns nil, the
content is the entry's, and the mode is still 600. -/
theorem existing_file_keeps_mode :
    (unzip (posix goodEnv) "/tmp/merged.zip" "/tmp" staleTree).out = .ret none ∧
      (unzip (posix goodEnv) "/tmp/merged.zip" "/tmp" staleTree).state ["tmp", "merged.yml"] =
        some (.file 0o600 [1, 2, 3]) := by
  decide

/-- C6, amended: when a regular file of mode `m0` already exists at the path
of a file entry, `unzip` returns nil, and no later file entry of the archive
has the same path, then afterwards the file has exactly the content of the
entry and still the mode `m0`: the mode of the entry is not applied to an
existing file. -/
theorem overwrite_keeps_mode (env : Env) (archive target : String) (t : Tree)
    (pre post : List ZipFile) (f : ZipFile) (m0 : Nat) (d0 : Bytes)
    (hfiles : (posix env (.zipOpenReader archive) t).1.files = pre ++ f :: post)
    (hf : f.mode.isDir = false)
    (hexists : lookup t (resolve env (filepathJoin target f.name)) = some (.file m0 d0))
    (hlast : ∀ g ∈ post, g.mode.isDir = false →
      resolve env (filepathJoin target g.name) ≠ resolve env (filepathJoin target f.name))
    (hret : (unzip (posix env) archive target t).out = .ret none) :
    lookup (unzip (posix env) archive target t).state
      (resolve env (filepathJoin target f.name)) = some (.file m0 f.data) := by
  obtain ⟨-, -, hv, hs⟩ := unzip_posix_ok env archive target t hret
  rw [hs]
  rw [hfiles] at hv ⊢
  refine unzipLoop_overwrites env target f post m0 hf hlast pre [] _ d0 ?_ hv
  rw [posix_mkdirAll_frame env _ _ t _ (by rw [hexists]; simp), hexists]

/-- C6 amended, at the template left by an earlier run. -/
theorem overwrite_keeps_mode_witness :
    (posix goodEnv (.zipOpenReader "/tmp/merged.zip") staleTree).1.files =
        [] ++ ⟨"merged.yml", ⟨false, 0o644⟩, [1, 2, 3]⟩ :: [] ∧
      lookup staleTree (resolve goodEnv (filepathJoin "/tmp" "merged.yml")) =
        some (.file 0o600 [9, 9, 9, 9]) ∧
      (unzip (posix goodEnv) "/tmp/merged.zip" "/tmp" staleTree).out = .ret none ∧
      lookup (unzip (posix goodEnv) "/tmp/merged.zip" "/tmp" staleTree).state
        (resolve goodEnv (filepathJoin "/tmp" "merged.yml")) = some (.file 0o600 [1, 2, 3]) :=
  ⟨by decide, by decide, by decide,
    overwrite_keeps_mode goodEnv "/tmp/merged.zip" "/tmp" staleTree []  []
      ⟨"merged.yml", ⟨false, 0o644⟩, [1, 2, 3]⟩ 0o600 [9, 9, 9, 9] (by decide) (by decide)
      (by decide) (by simp) (by decide)⟩

/-- C5, amended: for an archive with explicit directories (every file entry
lies in the target itself or in a directory on the path of a directory entry
placed before it, every entry is extracted at or below the target, and no
other entry is extracted at or below the path of a file entry) and an empty
target directory, `unzip` returns nil and afterwards every file entry is a
regular file at its path with exactly the content of the entry and the mode of
the entry less the bits of the umask. -/
theorem staged_archive_extracts (env : Env) (archive target : String) (t : Tree)
    (files : List ZipFile) (m : Nat) (hT : target ≠ "")
    (hopen : (posix env (.zipOpenReader archive) t).1 = ⟨none, files, []⟩)
    (hdir : lookup t (resolve env target) = some (.dir m))
    (hempty : ∀ q, resolve env target <+: q → q ≠ resolve env target → t q = none)
    (hstaged : staged env target files = true) :
    (unzip (posix env) archive target t).out = .ret none ∧
      ∀ f ∈ files, f.mode.isDir = false →
        lookup (unzip (posix env) archive target t).state (entryKey env target f) =
          some (.file (masked f.mode.perm env.umask) f.data) := by
  have h1 : (posix env (.zipOpenReader archive) t).1.err = none := by rw [hopen]
  have hf : (posix env (.zipOpenReader archive) t).1.files = files := by rw [hopen]
  have hst := posix_zipOpenReader_state env archive t
  have hmk : posix env (.mkdirAll target ⟨false, 0o755⟩) t = (⟨none, [], []⟩, t) := by
    simp only [posix, hT, if_false]
    rw [mkdirAllRev_existing env _ _ t m (by rw [List.reverse_reverse]; exact hdir)]
  have h2 : (posix env (.mkdirAll target ⟨false, 0o755⟩)
      (posix env (.zipOpenReader archive) t).2).1.err = none := by rw [hst, hmk]
  obtain ⟨⟨v, hv⟩, hext⟩ := unzipLoop_staged env target hT files [] [] t hstaged
    (fun f hf => by cases hf) (Extracted.start env target t m hdir hempty)
  have hv2 : (unzipLoop (posix env) target (posix env (.zipOpenReader archive) t).1.files []
      (posix env (.mkdirAll target ⟨false, 0o755⟩)
        (posix env (.zipOpenReader archive) t).2).2).out = .ret (none, v) := by
    rw [hst, hmk, hf]
    exact hv
  have hcl := unzipLoop_defers (posix env) target _ [] _ (by simp) _ hv2
  obtain ⟨ho, hs, -⟩ := unzip_run (posix env) archive target t h1 h2 _ hv2
  refine ⟨ho, ?_⟩
  intro f hfm hfd
  rw [hs, runDefers_posix env _ hcl, hst, hmk, hf]
  exact hext.files f (by simpa using hfm) hfd

/-- C5 amended, at the archive `{a/, a/b.txt (644), a/c/, a/c/d.txt (755)}`
extracted into the empty directory `/tmp/T`. -/
theorem staged_archive_extracts_witness :
    ("/tmp/T" : String) ≠ "" ∧
      (posix explicitEnv (.zipOpenReader "/tmp/merged.zip") zipTree).1 =
        ⟨none, [⟨"a/", ⟨true, 0o755⟩, []⟩, ⟨"a/b.txt", ⟨false, 0o644⟩, [1]⟩,
          ⟨"a/c/", ⟨true, 0o755⟩, []⟩, ⟨"a/c/d.txt", ⟨false, 0o755⟩, [2]⟩], []⟩ ∧
      lookup zipTree (resolve explicitEnv "/tmp/T") = some (.dir 0o755) ∧
      staged explicitEnv "/tmp/T" [⟨"a/", ⟨true, 0o755⟩, []⟩, ⟨"a/b.txt", ⟨false, 0o644⟩, [1]⟩,
        ⟨"a/c/", ⟨true, 0o755⟩, []⟩, ⟨"a/c/d.txt", ⟨false, 0o755⟩, [2]⟩] = true ∧
      (unzip (posix explicitEnv) "/tmp/merged.zip" "/tmp/T" zipTree).out = .ret none ∧
      ∀ f ∈ [(⟨"a/", ⟨true, 0o755⟩, []⟩ : ZipFile), ⟨"a/b.txt", ⟨false, 0o644⟩, [1]⟩,
          ⟨"a/c/", ⟨true, 0o755⟩, []⟩, ⟨"a/c/d.txt", ⟨false, 0o755⟩, [2]⟩],
        f.mode.isDir = false →
        lookup (unzip (posix explicitEnv) "/tmp/merged.zip" "/tmp/T" zipTree).state
            (entryKey explicitEnv "/tmp/T" f) =
          some (.file (masked f.mode.perm explicitEnv.umask) f.data) :=
  ⟨by decide, by decide, by decide, by decide,
    staged_archive_extracts explicitEnv "/tmp/merged.zip" "/tmp/T" zipTree _ 0o755 (by decide)
      (by decide) (by decide)
      (by
        have hr : resolve explicitEnv "/tmp/T" = ["tmp", "T"] := by decide
        rw [hr]
        rintro q ⟨r, rfl⟩ hne
        cases r with
        | nil => simp at hne
        | cons a r => simp [zipTree])
      (by decide)⟩

/-- C9, amended: when the target is not the empty path and no entry name of
the archive has a `..` element, every path `unzip` creates or writes to (the
target, and the target joined with an entry name, for directory and file
entries alike) lies inside the target. -/
theorem unzip_writes_inside {σ : Type} (w : World σ) (archive target : String) (s : σ)
    (hT : target ≠ "")
    (hnames : ∀ f ∈ (w (.zipOpenReader archive) s).1.files, ".." ∉ elements f.name)
    (x : Rec) (hx : x ∈ (unzip w archive target s).trace) (p : String)
    (hp : x.call.writes = some p) : inside target p = true := by
  rcases unzip_writes w archive target s x hx p hp with rfl | ⟨f, hf, rfl⟩
  · exact inside_self _
  · exact inside_join target f.name hT (hnames f hf)

/-- C9 amended, at the template written by the extraction into `/tmp`. -/
theorem unzip_writes_inside_witness :
    ("/tmp" : String) ≠ "" ∧
      (∀ f ∈ (posix goodEnv (.zipOpenReader "/tmp/merged.zip") zipTree).1.files,
        ".." ∉ elements f.name) ∧
      (⟨.openFile "/tmp/merged.yml" ⟨false, 0o644⟩, none⟩ : Rec) ∈
        (unzip (posix goodEnv) "/tmp/merged.zip" "/tmp" zipTree).trace ∧
      (⟨.openFile "/tmp/merged.yml" ⟨false, 0o644⟩, none⟩ : Rec).call.writes =
        some "/tmp/merged.yml" ∧
      inside "/tmp" "/tmp/merged.yml" = true :=
  ⟨by decide, by decide, by decide, by decide,
    unzip_writes_inside (posix goodEnv) "/tmp/merged.zip" "/tmp" zipTree (by decide) (by decide)
      ⟨.openFile "/tmp/merged.yml" ⟨false, 0o644⟩, none⟩ (by decide) "/tmp/merged.yml"
      (by decide)⟩

end Extraction
end RtdPipeline

